import Mathlib

/-!
Verification of the file-organization engine of `support_bot`
(`src/support_bot/tools/desktop_tools.py`): category classification,
organize-by-type, organize-by-date, duplicate detection, large-file search,
folder statistics and empty-folder pruning, embedded shallowly over a
filesystem-tree model.
-/

namespace SupportBot

/-!
### Decimal representation: a clean form of `Nat.repr`

The collision-suffix loop of the organizers builds names `f"{base}_{counter}{ext}"`.
Its correctness (the loop always reaches a fresh name) rests on distinct counters
producing distinct strings, i.e. on `Nat.repr` being injective.  Core provides no
such lemma, so we relate `Nat.toDigits` to a structurally clean digits function
and prove injectivity of that.
-/

/-- Decimal digits of `n`, most significant first (`0` yields `"0"`),
matching what `Nat.toDigits 10` produces. -/
def repChars (n : Nat) : List Char :=
  if n < 10 then [Nat.digitChar n]
  else repChars (n / 10) ++ [Nat.digitChar (n % 10)]
termination_by n
decreasing_by omega

/-!
### The collision-suffix candidate names and the fresh-name search
-/

/-- The name tried by the collision loop at counter `k`:
`f"{base}_{counter}{ext}"`. -/
def candidateName (base ext : String) (k : Nat) : String :=
  base ++ "_" ++ Nat.repr k ++ ext

/-- The collision loop of the organizers: starting at counter `k`, return the
first candidate name not present in `names` (the entries of the destination
directory).  Structurally fueled; `fuel = names.length + 1` is always enough
(see `findFresh_fresh`). -/
def findFresh (names : List String) (base ext : String) : Nat → Nat → String
  | 0, k => candidateName base ext k
  | fuel + 1, k =>
    if candidateName base ext k ∈ names then findFresh names base ext fuel (k + 1)
    else candidateName base ext k

/-!
### Filesystem model

A directory's contents are a list of nodes; a node is a regular file (with a
ghost inode identity `ident`, a name, a byte size and a modification date) or a
subdirectory.  An operation's root is `Option FS`: `none` models a resolved
root that does not exist (`source_path.exists()` false).
-/

structure FileInfo where
  ident : Nat
  name : String
  size : Nat
  myear : Nat
  mmonth : Nat
deriving Repr, DecidableEq

inductive Node where
  | file (info : FileInfo)
  | dir (dname : String) (children : List Node)

abbrev FS := List Node

def nodeName : Node → String
  | .file f => f.name
  | .dir d _ => d

def nodeIsDir : Node → Bool
  | .file _ => false
  | .dir _ _ => true

/-- The entry names of a directory listing (files and subdirectories alike),
what `(dest_folder / name).exists()` consults. -/
def childNames (fs : FS) : List String := fs.map nodeName

mutual
def Node.allFiles : Node → List FileInfo
  | .file f => [f]
  | .dir _ cs => allFilesList cs
def allFilesList : List Node → List FileInfo
  | [] => []
  | n :: ns => n.allFiles ++ allFilesList ns
end

/-!
### `FILE_CATEGORIES` and `get_file_category`

The Python table is an insertion-ordered dict; lookup iterates categories in
that order and returns the first whose extension list contains the (lowercased)
extension, defaulting to `"Other"`.
-/

def FILE_CATEGORIES : List (String × List String) := [
  ("Documents", [".pdf", ".doc", ".docx", ".txt", ".rtf", ".odt", ".xls",
    ".xlsx", ".ppt", ".pptx", ".csv"]),
  ("Images", [".jpg", ".jpeg", ".png", ".gif", ".bmp", ".svg", ".webp",
    ".ico", ".tiff", ".raw"]),
  ("Videos", [".mp4", ".avi", ".mkv", ".mov", ".wmv", ".flv", ".webm", ".m4v"]),
  ("Audio", [".mp3", ".wav", ".flac", ".aac", ".ogg", ".wma", ".m4a"]),
  ("Archives", [".zip", ".rar", ".7z", ".tar", ".gz", ".bz2"]),
  ("Code", [".py", ".js", ".html", ".css", ".java", ".cpp", ".c", ".h",
    ".json", ".xml", ".yaml", ".yml", ".md"]),
  ("Executables", [".exe", ".msi", ".bat", ".cmd", ".ps1"]),
  ("Fonts", [".ttf", ".otf", ".woff", ".woff2"]),
  ("eBooks", [".epub", ".mobi", ".azw", ".azw3"]),
  ("Data", [".sql", ".db", ".sqlite", ".json", ".xml", ".csv"])]

def categoryNames : List String := FILE_CATEGORIES.map Prod.fst

/-- The eleven category names a classification can produce: the ten table
categories plus the `"Other"` default. -/
def allCategoryNames : List String := categoryNames ++ ["Other"]

/-- `str.lower()`, modelled as a per-character lowercase map (structural, so
concrete classifications evaluate). -/
def strLower (s : String) : String := ⟨s.data.map Char.toLower⟩

def get_file_category (file_extension : String) : String :=
  match FILE_CATEGORIES.find? (fun c => c.2.contains (strLower file_extension)) with
  | some c => c.1
  | none => "Other"

/-!
### `pathlib` name parts

`Path(name).suffix` / `.stem`: split at the last `'.'` whose index `i`
satisfies `0 < i < len - 1`; otherwise the suffix is empty and the stem is the
whole name.
-/

def lastDotIdx (cs : List Char) : Option Nat :=
  ((List.range cs.length).filter (fun i => cs.getD i ' ' == '.')).getLast?

def pathSuffix (s : String) : String :=
  match lastDotIdx s.data with
  | some i => if 0 < i ∧ i < s.data.length - 1 then ⟨s.data.drop i⟩ else ""
  | none => ""

def pathStem (s : String) : String :=
  match lastDotIdx s.data with
  | some i => if 0 < i ∧ i < s.data.length - 1 then ⟨s.data.take i⟩ else s
  | none => s

/-!
### Shallow scan and grouping for `organize_files`
-/

/-- `name.startswith('.')`: the first character is a dot (structural form). -/
def isHiddenName (s : String) : Bool :=
  match s.data with
  | [] => false
  | c :: _ => c == '.' 

/-- The shallow scan of `organize_files`: iterate the top-level entries of the
source folder, skip directories and hidden names, then skip entries whose
parent directory name — for a top-level entry, the source folder's own name
`rootName` — is a category name. -/
def selectedFiles (rootName : String) (fs : FS) : List FileInfo :=
  fs.filterMap fun node =>
    match node with
    | .dir _ _ => none
    | .file f =>
      if isHiddenName f.name then none
      else if categoryNames.contains rootName then none
      else some f

/-- Python dict grouping with insertion order: append to an existing bucket,
else create a new bucket at the end. -/
def addToGroups {κ : Type} [BEq κ] (groups : List (κ × List FileInfo)) (key : κ)
    (f : FileInfo) : List (κ × List FileInfo) :=
  if groups.any (fun g => g.1 == key) then
    groups.map (fun g => if g.1 == key then (g.1, g.2 ++ [f]) else g)
  else groups ++ [(key, [f])]

/-- Grouping a file list into a Python dict of buckets, bucket key `key f`. -/
def groupBy {κ : Type} [BEq κ] (key : FileInfo → κ) (files : List FileInfo) :
    List (κ × List FileInfo) :=
  files.foldl (fun acc f => addToGroups acc (key f) f) []

def typeKey (f : FileInfo) : String := get_file_category (pathSuffix f.name)

def files_to_move (rootName : String) (fs : FS) : List (String × List FileInfo) :=
  groupBy typeKey (selectedFiles rootName fs)

/-- Stable insertion used by `stableSort`: `x` lands before the first element
`y` with `le x y`, so equal elements keep their original relative order. -/
def stableInsert {α : Type} (le : α → α → Bool) (x : α) : List α → List α
  | [] => [x]
  | y :: ys => if le x y then x :: y :: ys else y :: stableInsert le x ys

/-- Python's `sorted` is a stable sort; a stable sort's output is uniquely
determined by `le`, so this structural insertion sort models it exactly. -/
def stableSort {α : Type} (le : α → α → Bool) : List α → List α
  | [] => []
  | x :: xs => stableInsert le x (stableSort le xs)

/-- `sorted(dict.items())`: ascending by key (keys are unique). -/
def sortByKey {α : Type} (gs : List (String × α)) : List (String × α) :=
  stableSort (fun x y => decide (x.1 ≤ y.1)) gs

/-!
### Filesystem mutation primitives
-/

/-- `dest_folder.mkdir(exist_ok=True)`: error if an entry of that name exists
and is not a directory, no-op if the directory exists, else append a fresh
empty directory. -/
def mkdirExistOk (fs : FS) (d : String) : Option FS :=
  if fs.any (fun n => nodeName n == d && !nodeIsDir n) then none
  else if fs.any (fun n => nodeName n == d && nodeIsDir n) then some fs
  else some (fs ++ [.dir d []])

def removeTopFile (fs : FS) (i : Nat) : FS :=
  fs.filter fun n =>
    match n with
    | .file f => f.ident != i
    | .dir _ _ => true

def dirChildren (fs : FS) (d : String) : List Node :=
  match fs.find? (fun n => nodeName n == d && nodeIsDir n) with
  | some (.dir _ cs) => cs
  | _ => []

def updateDirChildren (fs : FS) (d : String) (cs : List Node) : FS :=
  fs.map fun n =>
    match n with
    | .dir dn old => if dn == d then .dir dn cs else .dir dn old
    | f => f

/-- Landing a moved file in a directory listing, with `os.rename` replace
semantics: an existing entry of the same name is replaced.  The collision loop
guarantees the name is fresh, so nothing is ever actually replaced
(`organize_no_overwrite`). -/
def insertOverwriting (cs : List Node) (f : FileInfo) : List Node :=
  cs.filter (fun n => nodeName n != f.name) ++ [.file f]

/-- The destination filename: the original name if free in the destination
listing, else the first `f"{stem}_{counter}{suffix}"` (counter from 1) that is
free. -/
def chooseDestName (names : List String) (fname : String) : String :=
  if fname ∈ names then
    findFresh names (pathStem fname) (pathSuffix fname) (names.length + 1) 1
  else fname

/-- `shutil.move` of a top-level file into the top-level directory `d` of the
same root (create-in-source mode). -/
def moveTopIntoDir (fs : FS) (d : String) (f : FileInfo) : FS :=
  updateDirChildren (removeTopFile fs f.ident) d
    (insertOverwriting (dirChildren fs d)
      { f with name := chooseDestName (childNames (dirChildren fs d)) f.name })

/-!
### `organize_files`
-/

structure PreviewBucket where
  cat : String
  count : Nat
  shown : List String
  more : Nat
deriving Repr, DecidableEq

inductive OrgResult where
  | notFound
  | noFiles
  | preview (buckets : List PreviewBucket)
  | done (buckets : List (String × Nat)) (totalMoved : Nat) (skipped : List String)
  | failure (msg : String)
deriving Repr, DecidableEq

/-- Per-file loop of a category bucket: a failing move (`orc f = some reason`)
is caught, recorded as `f"{file.name}: {e}"`, and the loop continues; a
successful move mutates the tree and counts toward `moved_count`. -/
def execFiles (d : String) (orc : FileInfo → Option String) :
    FS → List FileInfo → FS × List String × Nat
  | fs, [] => (fs, [], 0)
  | fs, f :: rest =>
    match orc f with
    | some e =>
      let out := execFiles d orc fs rest
      (out.1, (f.name ++ ": " ++ e) :: out.2.1, out.2.2)
    | none =>
      let out := execFiles d orc (moveTopIntoDir fs d f) rest
      (out.1, out.2.1, out.2.2 + 1)

inductive ExecOut where
  | ok (fs : FS) (buckets : List (String × Nat)) (skipped : List String)
      (totalMoved : Nat)
  | err (fs : FS) (msg : String)

/-- The tree state an execution ends in, whether it completed or aborted. -/
def execOutFS : ExecOut → FS
  | .ok fs _ _ _ => fs
  | .err fs _ => fs

/-- Per-category loop: `mkdir` the category folder (a same-named file raises,
aborting the whole operation into the outer handler), then move the bucket's
files. -/
def execGroups (orc : FileInfo → Option String) :
    FS → List (String × List FileInfo) → ExecOut
  | fs, [] => .ok fs [] [] 0
  | fs, (cat, files) :: rest =>
    match mkdirExistOk fs cat with
    | none => .err fs "FileExistsError"
    | some fs1 =>
      let out := execFiles cat orc fs1 files
      match execGroups orc out.1 rest with
      | .ok fs3 buckets skipped total =>
        .ok fs3 ((cat, out.2.2) :: buckets) (out.2.1 ++ skipped) (out.2.2 + total)
      | .err fs3 msg => .err fs3 msg

def previewBuckets (gs : List (String × List FileInfo)) : List PreviewBucket :=
  gs.map fun g =>
    { cat := g.1, count := g.2.length,
      shown := (g.2.take 5).map (fun f => f.name), more := g.2.length - 5 }

/-- `organize_files` in create-in-source mode (the default): category folders
are created inside the source root and files move into them. -/
def organize_files (rootName : String) (root : Option FS) (preview_only : Bool)
    (orc : FileInfo → Option String) : OrgResult × Option FS :=
  match root with
  | none => (.notFound, none)
  | some fs =>
    let groups := files_to_move rootName fs
    if groups.isEmpty then (.noFiles, some fs)
    else if preview_only then (.preview (previewBuckets (sortByKey groups)), some fs)
    else
      match execGroups orc fs (sortByKey groups) with
      | .ok fs' buckets skipped total => (.done buckets total skipped, some fs')
      | .err fs' msg => (.failure msg, some fs')

/-!
### `organize_files` with a destination-folder override
(`create_in_source=False`): same plan over the source root, but category
folders are created under — and files move into — a separate destination tree.
-/

def moveTopIntoDirTo (src dst : FS) (d : String) (f : FileInfo) : FS × FS :=
  (removeTopFile src f.ident,
    updateDirChildren dst d
      (insertOverwriting (dirChildren dst d)
        { f with name := chooseDestName (childNames (dirChildren dst d)) f.name }))

def execFilesTo (d : String) (orc : FileInfo → Option String) :
    FS → FS → List FileInfo → FS × FS × List String × Nat
  | src, dst, [] => (src, dst, [], 0)
  | src, dst, f :: rest =>
    match orc f with
    | some e =>
      let out := execFilesTo d orc src dst rest
      (out.1, out.2.1, (f.name ++ ": " ++ e) :: out.2.2.1, out.2.2.2)
    | none =>
      let moved := moveTopIntoDirTo src dst d f
      let out := execFilesTo d orc moved.1 moved.2 rest
      (out.1, out.2.1, out.2.2.1, out.2.2.2 + 1)

inductive ExecOutTo where
  | ok (src dst : FS) (buckets : List (String × Nat)) (skipped : List String)
      (totalMoved : Nat)
  | err (src dst : FS) (msg : String)

def execGroupsTo (orc : FileInfo → Option String) :
    FS → FS → List (String × List FileInfo) → ExecOutTo
  | src, dst, [] => .ok src dst [] [] 0
  | src, dst, (cat, files) :: rest =>
    match mkdirExistOk dst cat with
    | none => .err src dst "FileExistsError"
    | some dst1 =>
      let out := execFilesTo cat orc src dst1 files
      match execGroupsTo orc out.1 out.2.1 rest with
      | .ok src3 dst3 buckets skipped total =>
        .ok src3 dst3 ((cat, out.2.2.2) :: buckets) (out.2.2.1 ++ skipped)
          (out.2.2.2 + total)
      | .err src3 dst3 msg => .err src3 dst3 msg

def organize_files_to (rootName : String) (root : Option FS) (dst : FS)
    (preview_only : Bool) (orc : FileInfo → Option String) :
    OrgResult × Option FS × FS :=
  match root with
  | none => (.notFound, none, dst)
  | some fs =>
    let groups := files_to_move rootName fs
    if groups.isEmpty then (.noFiles, some fs, dst)
    else if preview_only then
      (.preview (previewBuckets (sortByKey groups)), some fs, dst)
    else
      match execGroupsTo orc fs dst (sortByKey groups) with
      | .ok src' dst' buckets skipped total =>
        (.done buckets total skipped, some src', dst')
      | .err src' dst' msg => (.failure msg, some src', dst')

/-!
### `organize_by_date`

Bucket key `f"{mtime.year}/{mtime.strftime('%m - %B')}"`; destination
`source_path / date_folder` is a year directory containing a month directory
(`mkdir(parents=True, exist_ok=True)`).  A failing move hits a bare
`except: pass`: it is caught and the loop continues, but nothing is recorded.
-/

def monthLongName : Nat → String
  | 1 => "January" | 2 => "February" | 3 => "March" | 4 => "April"
  | 5 => "May" | 6 => "June" | 7 => "July" | 8 => "August"
  | 9 => "September" | 10 => "October" | 11 => "November" | 12 => "December"
  | _ => ""

def dateKey (f : FileInfo) : String :=
  Nat.repr f.myear ++ "/" ++
    (if f.mmonth < 10 then "0" ++ Nat.repr f.mmonth else Nat.repr f.mmonth) ++
    " - " ++ monthLongName f.mmonth

/-- The date scan skips directories and hidden names only — no
category-parent exclusion here. -/
def dateSelected (fs : FS) : List FileInfo :=
  fs.filterMap fun node =>
    match node with
    | .dir _ _ => none
    | .file f => if isHiddenName f.name then none else some f

def files_by_date (fs : FS) : List (String × List FileInfo) :=
  groupBy dateKey (dateSelected fs)

/-- `(source_path / "y/m").mkdir(parents=True, exist_ok=True)`: ensure the
year directory, then the month directory inside it; an entry of either name
that is not a directory raises. -/
def mkdirParents2 (fs : FS) (a b : String) : Option FS :=
  match mkdirExistOk fs a with
  | none => none
  | some fs1 =>
    match mkdirExistOk (dirChildren fs1 a) b with
    | none => none
    | some cs1 => some (updateDirChildren fs1 a cs1)

def dirChildren2 (fs : FS) (a b : String) : List Node :=
  dirChildren (dirChildren fs a) b

def updateDir2 (fs : FS) (a b : String) (cs : List Node) : FS :=
  updateDirChildren fs a (updateDirChildren (dirChildren fs a) b cs)

def moveTopIntoDir2 (fs : FS) (a b : String) (f : FileInfo) : FS :=
  updateDir2 (removeTopFile fs f.ident) a b
    (insertOverwriting (dirChildren2 fs a b)
      { f with name := chooseDestName (childNames (dirChildren2 fs a b)) f.name })

def execFilesDate (a b : String) (orc : FileInfo → Option String) :
    FS → List FileInfo → FS × Nat
  | fs, [] => (fs, 0)
  | fs, f :: rest =>
    match orc f with
    | some _ => execFilesDate a b orc fs rest
    | none =>
      let out := execFilesDate a b orc (moveTopIntoDir2 fs a b f) rest
      (out.1, out.2 + 1)

inductive ExecOutDate where
  | ok (fs : FS) (buckets : List (String × Nat)) (totalMoved : Nat)
  | err (fs : FS) (msg : String)

/-- Splitting the date key `"YYYY/MM - Month"` into its two path components,
as `source_path / date_folder` does (structural form of a split on `'/'`). -/
def splitSlashAux : List Char → List Char → List String
  | [], acc => [⟨acc.reverse⟩]
  | c :: cs, acc =>
    if c == '/' then ⟨acc.reverse⟩ :: splitSlashAux cs []
    else splitSlashAux cs (c :: acc)

def splitOnSlash (s : String) : List String := splitSlashAux s.data []

/-- The executed summary line of a bucket reports `len(files)` — the planned
count — not the number of successful moves. -/
def execGroupsDate (orc : FileInfo → Option String) :
    FS → List (String × List FileInfo) → ExecOutDate
  | fs, [] => .ok fs [] 0
  | fs, (key, files) :: rest =>
    let parts := splitOnSlash key
    let a := parts.getD 0 ""
    let b := parts.getD 1 ""
    match mkdirParents2 fs a b with
    | none => .err fs "FileExistsError"
    | some fs1 =>
      let out := execFilesDate a b orc fs1 files
      match execGroupsDate orc out.1 rest with
      | .ok fs3 buckets total => .ok fs3 ((key, files.length) :: buckets) (out.2 + total)
      | .err fs3 msg => .err fs3 msg

inductive DateResult where
  | notFound
  | noFiles
  | preview (buckets : List (String × Nat))
  | done (buckets : List (String × Nat)) (totalMoved : Nat)
  | failure (msg : String)
deriving Repr, DecidableEq

def organize_by_date (root : Option FS) (preview_only : Bool)
    (orc : FileInfo → Option String) : DateResult × Option FS :=
  match root with
  | none => (.notFound, none)
  | some fs =>
    let groups := files_by_date fs
    if groups.isEmpty then (.noFiles, some fs)
    else if preview_only then
      (.preview ((sortByKey groups).map fun g => (g.1, g.2.length)), some fs)
    else
      match execGroupsDate orc fs (sortByKey groups) with
      | .ok fs' buckets total => (.done buckets total, some fs')
      | .err fs' msg => (.failure msg, some fs')

/-!
### `cleanup_empty_folders`

Bottom-up walk; a directory (never the root itself) is removed once its
already-pruned contents are empty; `rmdir` failures (`canRemove` false) are
skipped silently.
-/

mutual
def pruneNode (canRemove : String → Bool) : Node → Option Node × List String
  | .file f => (some (.file f), [])
  | .dir d cs =>
    let out := pruneList canRemove cs
    if out.1.isEmpty && canRemove d then (none, out.2 ++ [d])
    else (some (.dir d out.1), out.2)
def pruneList (canRemove : String → Bool) : List Node → List Node × List String
  | [] => ([], [])
  | n :: ns =>
    let o1 := pruneNode canRemove n
    let o2 := pruneList canRemove ns
    (match o1.1 with
     | some m => m :: o2.1
     | none => o2.1, o1.2 ++ o2.2)
end

inductive PruneResult where
  | notFound
  | ok (removed : List String)
deriving Repr, DecidableEq

def cleanup_empty_folders (root : Option FS) (canRemove : String → Bool) :
    PruneResult × Option FS :=
  match root with
  | none => (.notFound, none)
  | some fs =>
    let out := pruneList canRemove fs
    (.ok out.2, some out.1)

/-!
### `find_duplicates`

Recursive scan (`rglob`), grouped by exact byte size; candidate groups are
those with more than one member and nonzero size; display sorts groups by
descending size, capped to 10 groups of 5 shown names.
-/

def sizeGroups (files : List FileInfo) : List (Nat × List FileInfo) :=
  groupBy (fun f => f.size) files

def dupGroups (files : List FileInfo) : List (Nat × List FileInfo) :=
  (sizeGroups files).filter (fun g => 1 < g.2.length && 0 < g.1)

inductive DupResult where
  | notFound
  | noDups
  | found (groups : List (Nat × List FileInfo)) (shown : List (Nat × List String))
deriving Repr, DecidableEq

def find_duplicates (root : Option FS) : DupResult :=
  match root with
  | none => .notFound
  | some fs =>
    let dups := dupGroups (allFilesList fs)
    if dups.isEmpty then .noDups
    else
      .found dups
        (((stableSort (fun x y => decide (y.1 ≤ x.1)) dups).take 10).map
          fun g => (g.1, (g.2.take 5).map fun f => f.name))

/-!
### `find_large_files`

Recursive scan, filter `size >= min_size_mb * 1024 * 1024`, sort descending by
size.  The displayed list is capped at 15 entries; the reported match count is
the full `len(large_files)`, but the reported total size is accumulated only
over the 15 displayed entries.
-/

structure LargeReport where
  shown : List (Nat × String)
  moreCount : Nat
  totalSizeShown : Nat
  matchCount : Nat
deriving Repr, DecidableEq

inductive LargeResult where
  | notFound
  | noneAbove
  | found (r : LargeReport)
deriving Repr, DecidableEq

def find_large_files (root : Option FS) (min_size_mb : Nat) : LargeResult :=
  match root with
  | none => .notFound
  | some fs =>
    let min_size := min_size_mb * 1024 * 1024
    let large := (allFilesList fs).filter (fun f => min_size ≤ f.size)
    if large.isEmpty then .noneAbove
    else
      let sorted := stableSort (fun x y => decide (y.size ≤ x.size)) large
      .found { shown := (sorted.take 15).map (fun f => (f.size, f.name)),
               moreCount := large.length - 15,
               totalSizeShown := ((sorted.take 15).map (fun f => f.size)).sum,
               matchCount := large.length }

/-!
### `get_folder_stats`
-/

def extKey (name : String) : String :=
  let s := strLower (pathSuffix name)
  if s = "" then "(no extension)" else s

def bumpCat (cats : List (String × Nat × Nat)) (c : String) (sz : Nat) :
    List (String × Nat × Nat) :=
  if cats.any (fun g => g.1 == c) then
    cats.map (fun g => if g.1 == c then (g.1, g.2.1 + 1, g.2.2 + sz) else g)
  else cats ++ [(c, 1, sz)]

def bumpExt (exts : List (String × Nat)) (e : String) : List (String × Nat) :=
  if exts.any (fun g => g.1 == e) then
    exts.map (fun g => if g.1 == e then (g.1, g.2 + 1) else g)
  else exts ++ [(e, 1)]

structure StatsReport where
  total_files : Nat
  total_size : Nat
  by_category : List (String × Nat × Nat)
  by_extension : List (String × Nat)
  catsBySize : List (String × Nat × Nat)
  topExts : List (String × Nat)
deriving Repr, DecidableEq

inductive StatsResult where
  | notFound
  | ok (r : StatsReport)
deriving Repr, DecidableEq

def get_folder_stats (root : Option FS) : StatsResult :=
  match root with
  | none => .notFound
  | some fs =>
    let files := allFilesList fs
    let cats := files.foldl
      (fun acc f => bumpCat acc (get_file_category (pathSuffix f.name)) f.size) []
    let exts := files.foldl (fun acc f => bumpExt acc (extKey f.name)) []
    .ok { total_files := files.length
          total_size := (files.map (fun f => f.size)).sum
          by_category := cats
          by_extension := exts
          catsBySize := stableSort (fun x y => decide (y.2.2 ≤ x.2.2)) cats
          topExts := (stableSort (fun x y => decide (y.2 ≤ x.2)) exts).take 5 }

/-!
### Observers used by the specifications
-/

/-- The top-level regular files of a root (what the shallow scan iterates
before its skip rules). -/
def topFiles (fs : FS) : List FileInfo :=
  fs.filterMap fun n =>
    match n with
    | .file f => some f
    | .dir _ _ => none

def OrgResult.isNotFound : OrgResult → Bool
  | .notFound => true
  | _ => false

def DateResult.isNotFound : DateResult → Bool
  | .notFound => true
  | _ => false

def PruneResult.isNotFound : PruneResult → Bool
  | .notFound => true
  | _ => false

def DupResult.isNotFound : DupResult → Bool
  | .notFound => true
  | _ => false

def LargeResult.isNotFound : LargeResult → Bool
  | .notFound => true
  | _ => false

def StatsResult.isNotFound : StatsResult → Bool
  | .notFound => true
  | _ => false

def dupGroupsOf : DupResult → List (Nat × List FileInfo)
  | .found groups _ => groups
  | _ => []

def largeReportOf : LargeResult → Option LargeReport
  | .found r => some r
  | _ => none

def statsReportOf : StatsResult → Option StatsReport
  | .ok r => some r
  | _ => none

/-!
### Concrete fixtures (used by witnesses and counterexamples)
-/

/-- No move ever fails. -/
def orcNone : FileInfo → Option String := fun _ => none

/-- The end-to-end demo root of the specification: `report.pdf` (10 KB),
`photo.png` and a byte-identical-size `photo_copy.png` (500 KB), `script.py`
(2 KB). -/
def demoFS : FS := [
  .file ⟨1, "report.pdf", 10240, 2024, 3⟩,
  .file ⟨2, "photo.png", 512000, 2024, 3⟩,
  .file ⟨3, "photo_copy.png", 512000, 2024, 4⟩,
  .file ⟨4, "script.py", 2048, 2023, 12⟩]

/-- Sixteen 2 MB files — one more than the 15-entry display cap. -/
def fsLarge16 : FS :=
  (List.range 16).map fun i =>
    .file ⟨i + 1, "f" ++ Nat.repr (i + 1) ++ ".bin", 2097152, 2024, 1⟩

/-- Two same-month files, used to exhibit the silent skip of
`organize_by_date`. -/
def fsDate2 : FS := [
  .file ⟨1, "a.txt", 5, 2024, 3⟩,
  .file ⟨2, "b.txt", 7, 2024, 3⟩]

/-- The move of the file with identity 1 raises `Permission denied`. -/
def orcFail1 : FileInfo → Option String :=
  fun f => if f.ident = 1 then some "Permission denied" else none

/-- The move of the file with identity 2 raises `Disk full`. -/
def orcFail2 : FileInfo → Option String :=
  fun f => if f.ident = 2 then some "Disk full" else none

/-!
### Lemma toolkit and claim theorems
-/

theorem repChars_eq (n : Nat) :
    repChars n =
      if n < 10 then [Nat.digitChar n]
      else repChars (n / 10) ++ [Nat.digitChar (n % 10)] := by
  rw [repChars]

theorem repChars_ne_nil (n : Nat) : repChars n ≠ [] := by
  rw [repChars_eq]
  split <;> simp

theorem toDigitsCore_succ (fuel n : Nat) (ds : List Char) :
    Nat.toDigitsCore 10 (fuel + 1) n ds =
      if n / 10 = 0 then Nat.digitChar (n % 10) :: ds
      else Nat.toDigitsCore 10 fuel (n / 10) (Nat.digitChar (n % 10) :: ds) := rfl

theorem toDigitsCore_eq_repChars :
    ∀ (fuel n : Nat) (ds : List Char), n < 10 ^ (fuel + 1) →
      Nat.toDigitsCore 10 (fuel + 1) n ds = repChars n ++ ds := by
  intro fuel
  induction fuel with
  | zero =>
    intro n ds h
    have h : n < 10 := by simpa using h
    have hdiv : n / 10 = 0 := Nat.div_eq_of_lt h
    have hmod : n % 10 = n := Nat.mod_eq_of_lt h
    rw [toDigitsCore_succ, if_pos hdiv, repChars_eq n, if_pos h, hmod]
    rfl
  | succ fuel ih =>
    intro n ds h
    by_cases hten : n < 10
    · have hdiv : n / 10 = 0 := Nat.div_eq_of_lt hten
      have hmod : n % 10 = n := Nat.mod_eq_of_lt hten
      rw [toDigitsCore_succ, if_pos hdiv, repChars_eq n, if_pos hten, hmod]
      rfl
    · have hdiv : ¬ n / 10 = 0 := by omega
      have hlt : n / 10 < 10 ^ (fuel + 1) := by
        rw [Nat.div_lt_iff_lt_mul (by norm_num)]
        calc n < 10 ^ (fuel + 1 + 1) := h
        _ = 10 ^ (fuel + 1) * 10 := by ring
      rw [toDigitsCore_succ, if_neg hdiv,
        ih (n / 10) (Nat.digitChar (n % 10) :: ds) hlt, repChars_eq n, if_neg hten]
      simp

theorem repr_eq_repChars (n : Nat) : Nat.repr n = (repChars n).asString := by
  have hn : n < 10 ^ (n + 1) := by
    calc n < 10 ^ n := Nat.lt_pow_self (by norm_num) n
    _ ≤ 10 ^ (n + 1) := Nat.pow_le_pow_right (by norm_num) (Nat.le_succ n)
  show (Nat.toDigits 10 n).asString = _
  rw [Nat.toDigits, toDigitsCore_eq_repChars n n [] hn, List.append_nil]

theorem digitChar_inj_lt : ∀ a < 10, ∀ b < 10,
    Nat.digitChar a = Nat.digitChar b → a = b := by decide

theorem repChars_injective : ∀ m n : Nat, repChars m = repChars n → m = n := by
  intro m
  induction m using Nat.strong_induction_on with
  | _ m ih =>
    intro n h
    by_cases hm : m < 10 <;> by_cases hn : n < 10
    · rw [repChars_eq m, if_pos hm, repChars_eq n, if_pos hn] at h
      exact digitChar_inj_lt m hm n hn (by simpa using h)
    · rw [repChars_eq m, if_pos hm, repChars_eq n, if_neg hn] at h
      have hlen := congrArg List.length h
      simp only [List.length_cons, List.length_nil, List.length_append] at hlen
      have h0 : repChars (n / 10) = [] :=
        List.eq_nil_of_length_eq_zero (by omega)
      exact absurd h0 (repChars_ne_nil _)
    · rw [repChars_eq m, if_neg hm, repChars_eq n, if_pos hn] at h
      have hlen := congrArg List.length h
      simp only [List.length_cons, List.length_nil, List.length_append] at hlen
      have h0 : repChars (m / 10) = [] :=
        List.eq_nil_of_length_eq_zero (by omega)
      exact absurd h0 (repChars_ne_nil _)
    · rw [repChars_eq m, if_neg hm, repChars_eq n, if_neg hn] at h
      have h' := congrArg List.reverse h
      simp only [List.reverse_append, List.reverse_cons, List.reverse_nil,
        List.nil_append, List.cons_append, List.cons.injEq] at h'
      obtain ⟨hd, ht⟩ := h'
      have hmod : m % 10 = n % 10 :=
        digitChar_inj_lt (m % 10) (Nat.mod_lt m (by norm_num)) (n % 10)
          (Nat.mod_lt n (by norm_num)) hd
      have hdivlt : m / 10 < m := Nat.div_lt_self (by omega) (by norm_num)
      have hdiv : m / 10 = n / 10 :=
        ih (m / 10) hdivlt (n / 10) (List.reverse_injective ht)
      omega

theorem asString_injective (l₁ l₂ : List Char) (h : l₁.asString = l₂.asString) :
    l₁ = l₂ := by
  exact congrArg String.data h

theorem repr_injective : Function.Injective Nat.repr := by
  intro m n h
  rw [repr_eq_repChars, repr_eq_repChars] at h
  exact repChars_injective m n (asString_injective _ _ h)

theorem string_data_append (s t : String) : (s ++ t).data = s.data ++ t.data := by
  cases s; cases t; rfl

theorem string_data_injective (s t : String) (h : s.data = t.data) : s = t := by
  cases s; cases t; exact congrArg String.mk h

theorem candidateName_injective (base ext : String) :
    Function.Injective (candidateName base ext) := by
  intro m n h
  unfold candidateName at h
  have h' := congrArg String.data h
  simp only [string_data_append] at h'
  have h'' := List.append_cancel_right h'
  have h''' := List.append_cancel_left h''
  exact repr_injective (string_data_injective _ _ h''')

theorem findFresh_mem_or_fresh (names : List String) (base ext : String) :
    ∀ fuel k, (∀ j, k ≤ j → j < k + fuel → candidateName base ext j ∈ names) ∨
      findFresh names base ext fuel k ∉ names := by
  intro fuel
  induction fuel with
  | zero => intro k; exact Or.inl (by omega)
  | succ fuel ih =>
    intro k
    by_cases hk : candidateName base ext k ∈ names
    · rcases ih (k + 1) with hall | hfresh
      · refine Or.inl fun j hj₁ hj₂ => ?_
        rcases Nat.eq_or_lt_of_le hj₁ with rfl | hlt
        · exact hk
        · exact hall j hlt (by omega)
      · exact Or.inr (by rwa [findFresh, if_pos hk])
    · exact Or.inr (by rwa [findFresh, if_neg hk])

theorem findFresh_fresh (names : List String) (base ext : String) :
    findFresh names base ext (names.length + 1) 1 ∉ names := by
  rcases findFresh_mem_or_fresh names base ext (names.length + 1) 1 with hall | hfresh
  · exfalso
    have hsub : (List.range' 1 (names.length + 1)).map (candidateName base ext) ⊆
        names := by
      intro s hs
      rcases List.mem_map.1 hs with ⟨j, hj, rfl⟩
      rcases List.mem_range'.1 hj with ⟨i, hi, rfl⟩
      exact hall _ (by omega) (by omega)
    have hnd : ((List.range' 1 (names.length + 1)).map (candidateName base ext)).Nodup :=
      (List.nodup_range' 1 (names.length + 1)).map (candidateName_injective base ext)
    have := (List.subperm_of_subset hnd hsub).length_le
    simp at this
  · exact hfresh

/-- Exact characterization of the loop result: the candidate at the least
counter `j ≥ k` whose name is free; every earlier counter's name was taken. -/
theorem findFresh_spec (names : List String) (base ext : String) :
    ∀ fuel k, ∃ j, k ≤ j ∧ findFresh names base ext fuel k = candidateName base ext j ∧
      ∀ i, k ≤ i → i < j → candidateName base ext i ∈ names := by
  intro fuel
  induction fuel with
  | zero => intro k; exact ⟨k, le_refl k, rfl, by omega⟩
  | succ fuel ih =>
    intro k
    by_cases hk : candidateName base ext k ∈ names
    · rcases ih (k + 1) with ⟨j, hj₁, hj₂, hj₃⟩
      refine ⟨j, by omega, by rwa [findFresh, if_pos hk], fun i hi₁ hi₂ => ?_⟩
      rcases Nat.eq_or_lt_of_le hi₁ with rfl | hlt
      · exact hk
      · exact hj₃ i hlt hi₂
    · exact ⟨k, le_refl k, by rw [findFresh, if_neg hk], by omega⟩

theorem chooseDestName_fresh (names : List String) (fname : String) :
    chooseDestName names fname ∉ names := by
  unfold chooseDestName
  split
  · exact findFresh_fresh names (pathStem fname) (pathSuffix fname)
  · assumption

theorem addToGroups_cons_ne {κ : Type} [BEq κ] (g : κ × List FileInfo)
    (t : List (κ × List FileInfo)) (k : κ) (f : FileInfo)
    (h : (g.1 == k) = false) :
    addToGroups (g :: t) k f = g :: addToGroups t k f := by
  unfold addToGroups
  simp only [List.any_cons, h, Bool.false_or]
  by_cases ht : t.any (fun x => x.1 == k)
  · simp [ht, h]
  · simp [ht, h]

theorem map_bump_id {κ : Type} [BEq κ] (t : List (κ × List FileInfo)) (k : κ)
    (f : FileInfo) (h : ∀ x ∈ t, (x.1 == k) = false) :
    t.map (fun g => if g.1 == k then (g.1, g.2 ++ [f]) else g) = t := by
  induction t with
  | nil => rfl
  | cons x xs ih =>
    have hx := h x (List.mem_cons_self x xs)
    simp only [List.map_cons, hx, Bool.false_eq_true, if_false, List.cons.injEq,
      true_and]
    exact ih fun y hy => h y (List.mem_cons_of_mem x hy)

theorem addToGroups_flat_perm {κ : Type} [BEq κ] [LawfulBEq κ]
    (acc : List (κ × List FileInfo))
    (k : κ) (f : FileInfo) (hnd : (acc.map Prod.fst).Nodup) :
    List.Perm ((addToGroups acc k f).flatMap Prod.snd)
      (acc.flatMap Prod.snd ++ [f]) := by
  induction acc with
  | nil => simp [addToGroups]
  | cons g t ih =>
    simp only [List.map_cons, List.nodup_cons] at hnd
    by_cases hk : (g.1 == k) = true
    · have hknot : ∀ x ∈ t, (x.1 == k) = false := by
        intro x hx
        have hne : x.1 ≠ g.1 := fun he => hnd.1 (he ▸ List.mem_map_of_mem Prod.fst hx)
        have hgk : g.1 = k := eq_of_beq hk
        rw [← hgk]
        exact beq_eq_false_iff_ne.2 hne
      unfold addToGroups
      have hany : (g :: t).any (fun x => x.1 == k) = true := by
        simp only [List.any_cons, hk, Bool.true_or]
      rw [if_pos hany]
      simp only [List.map_cons, if_pos hk, map_bump_id t k f hknot,
        List.flatMap_cons]
      have h1 : List.Perm ([f] ++ t.flatMap Prod.snd) (t.flatMap Prod.snd ++ [f]) :=
        List.perm_append_comm
      have h2 := List.Perm.append_left g.2 h1
      rw [List.append_assoc, List.append_assoc]
      exact h2
    · rw [addToGroups_cons_ne g t k f (by simpa using hk)]
      simp only [List.flatMap_cons]
      have h2 := List.Perm.append_left g.2 (ih hnd.2)
      rw [List.append_assoc]
      exact h2

theorem addToGroups_keys {κ : Type} [BEq κ] (acc : List (κ × List FileInfo))
    (k : κ) (f : FileInfo) :
    (addToGroups acc k f).map Prod.fst =
      if acc.any (fun g => g.1 == k) then acc.map Prod.fst
      else acc.map Prod.fst ++ [k] := by
  unfold addToGroups
  split
  · rw [List.map_map]
    refine List.map_congr_left fun g _ => ?_
    by_cases hg : (g.1 == k) = true <;> simp [hg]
  · simp

theorem addToGroups_keys_nodup {κ : Type} [BEq κ] [LawfulBEq κ]
    (acc : List (κ × List FileInfo)) (k : κ) (f : FileInfo)
    (hnd : (acc.map Prod.fst).Nodup) :
    ((addToGroups acc k f).map Prod.fst).Nodup := by
  rw [addToGroups_keys]
  split
  · exact hnd
  · rename_i hany
    have hk : k ∉ acc.map Prod.fst := by
      intro hmem
      rcases List.mem_map.1 hmem with ⟨g, hg, hgk⟩
      exact hany (List.any_eq_true.2 ⟨g, hg, by simp [hgk]⟩)
    rw [List.nodup_append]
    refine ⟨hnd, by simp, fun a ha hb => ?_⟩
    simp only [List.mem_singleton] at hb
    exact hk (hb ▸ ha)

theorem groupBy_aux_keys_nodup {κ : Type} [BEq κ] [LawfulBEq κ] (key : FileInfo → κ) :
    ∀ (files : List FileInfo) (acc : List (κ × List FileInfo)),
      (acc.map Prod.fst).Nodup →
      ((files.foldl (fun a f => addToGroups a (key f) f) acc).map Prod.fst).Nodup := by
  intro files
  induction files with
  | nil => intro acc h; exact h
  | cons f rest ih =>
    intro acc h
    exact ih (addToGroups acc (key f) f) (addToGroups_keys_nodup acc (key f) f h)

theorem groupBy_keys_nodup {κ : Type} [BEq κ] [LawfulBEq κ] (key : FileInfo → κ)
    (files : List FileInfo) : ((groupBy key files).map Prod.fst).Nodup :=
  groupBy_aux_keys_nodup key files [] List.nodup_nil

theorem groupBy_aux_flat_perm {κ : Type} [BEq κ] [LawfulBEq κ] (key : FileInfo → κ) :
    ∀ (files : List FileInfo) (acc : List (κ × List FileInfo)),
      (acc.map Prod.fst).Nodup →
      List.Perm ((files.foldl (fun a f => addToGroups a (key f) f) acc).flatMap Prod.snd)
        (acc.flatMap Prod.snd ++ files) := by
  intro files
  induction files with
  | nil => intro acc _; simp
  | cons f rest ih =>
    intro acc h
    have h1 := ih (addToGroups acc (key f) f) (addToGroups_keys_nodup acc (key f) f h)
    have h2 : List.Perm ((addToGroups acc (key f) f).flatMap Prod.snd ++ rest)
        ((acc.flatMap Prod.snd ++ [f]) ++ rest) :=
      List.Perm.append_right rest (addToGroups_flat_perm acc (key f) f h)
    have h3 : (acc.flatMap Prod.snd ++ [f]) ++ rest =
        acc.flatMap Prod.snd ++ f :: rest := by
      rw [List.append_assoc]; rfl
    exact (h1.trans h2).trans (List.Perm.of_eq h3)

theorem groupBy_flat_perm {κ : Type} [BEq κ] [LawfulBEq κ] (key : FileInfo → κ)
    (files : List FileInfo) :
    List.Perm ((groupBy key files).flatMap Prod.snd) files := by
  have := groupBy_aux_flat_perm key files [] List.nodup_nil
  simpa [groupBy] using this

theorem addToGroups_key_sound {κ : Type} [BEq κ] [LawfulBEq κ] (key : FileInfo → κ)
    (acc : List (κ × List FileInfo)) (k : κ) (f : FileInfo)
    (hacc : ∀ p ∈ acc, ∀ g ∈ p.2, key g = p.1) (hf : key f = k) :
    ∀ p ∈ addToGroups acc k f, ∀ g ∈ p.2, key g = p.1 := by
  unfold addToGroups
  split
  · intro p hp g hg
    rcases List.mem_map.1 hp with ⟨q, hq, rfl⟩
    by_cases hqk : (q.1 == k) = true
    · simp only [if_pos hqk] at hg ⊢
      rcases List.mem_append.1 hg with hold | hnew
      · exact hacc q hq g hold
      · simp only [List.mem_singleton] at hnew
        subst hnew
        exact hf.trans (eq_of_beq hqk).symm
    · simp only [hqk, Bool.false_eq_true, if_false] at hg ⊢
      exact hacc q hq g hg
  · intro p hp g hg
    rcases List.mem_append.1 hp with hold | hnew
    · exact hacc p hold g hg
    · simp only [List.mem_singleton] at hnew
      subst hnew
      simp only [List.mem_singleton] at hg
      subst hg
      exact hf

theorem groupBy_key_sound {κ : Type} [BEq κ] [LawfulBEq κ] (key : FileInfo → κ)
    (files : List FileInfo) :
    ∀ p ∈ groupBy key files, ∀ g ∈ p.2, key g = p.1 := by
  suffices h : ∀ (files : List FileInfo) (acc : List (κ × List FileInfo)),
      (∀ p ∈ acc, ∀ g ∈ p.2, key g = p.1) →
      ∀ p ∈ files.foldl (fun a f => addToGroups a (key f) f) acc, ∀ g ∈ p.2,
        key g = p.1 by
    exact h files [] fun p hp => absurd hp (List.not_mem_nil p)
  intro files
  induction files with
  | nil => intro acc h; exact h
  | cons f rest ih =>
    intro acc h
    exact ih (addToGroups acc (key f) f) (addToGroups_key_sound key acc (key f) f h rfl)

theorem addToGroups_mem_preserved {κ : Type} [BEq κ] (acc : List (κ × List FileInfo))
    (k : κ) (f : FileInfo) (k₀ : κ) (l₀ : List FileInfo) (g : FileInfo)
    (hmem : (k₀, l₀) ∈ acc) (hg : g ∈ l₀) :
    ∃ l₁, (k₀, l₁) ∈ addToGroups acc k f ∧ g ∈ l₁ := by
  unfold addToGroups
  split
  · by_cases hk : (k₀ == k) = true
    · exact ⟨l₀ ++ [f], by
        refine List.mem_map.2 ⟨(k₀, l₀), hmem, ?_⟩
        simp [hk], List.mem_append_left _ hg⟩
    · exact ⟨l₀, by
        refine List.mem_map.2 ⟨(k₀, l₀), hmem, ?_⟩
        simp [hk], hg⟩
  · exact ⟨l₀, List.mem_append_left _ hmem, hg⟩

theorem addToGroups_self_mem {κ : Type} [BEq κ] [LawfulBEq κ]
    (acc : List (κ × List FileInfo)) (k : κ) (f : FileInfo) :
    ∃ l, (k, l) ∈ addToGroups acc k f ∧ f ∈ l := by
  unfold addToGroups
  split
  · rename_i hany
    rcases List.any_eq_true.1 hany with ⟨q, hq, hqk⟩
    refine ⟨q.2 ++ [f], ?_, List.mem_append_right _ (by simp)⟩
    have hm : (q.1, q.2 ++ [f]) ∈ acc.map
        (fun g => if g.1 == k then (g.1, g.2 ++ [f]) else g) :=
      List.mem_map.2 ⟨q, hq, by simp [hqk]⟩
    rwa [eq_of_beq hqk] at hm
  · exact ⟨[f], List.mem_append_right _ (by simp), by simp⟩

theorem groupBy_mem_of_mem {κ : Type} [BEq κ] [LawfulBEq κ] (key : FileInfo → κ)
    (files : List FileInfo) (f : FileInfo) (hf : f ∈ files) :
    ∃ l, (key f, l) ∈ groupBy key files ∧ f ∈ l := by
  suffices h : ∀ (files : List FileInfo) (acc : List (κ × List FileInfo)),
      (f ∈ files ∨ ∃ l, (key f, l) ∈ acc ∧ f ∈ l) →
      ∃ l, (key f, l) ∈ files.foldl (fun a x => addToGroups a (key x) x) acc ∧
        f ∈ l by
    exact h files [] (Or.inl hf)
  intro files
  induction files with
  | nil =>
    intro acc h
    rcases h with h | h
    · exact absurd h (List.not_mem_nil f)
    · exact h
  | cons x rest ih =>
    intro acc h
    apply ih
    rcases h with h | ⟨l, hl, hfl⟩
    · rcases List.mem_cons.1 h with rfl | hrest
      · exact Or.inr (addToGroups_self_mem acc (key f) f)
      · exact Or.inl hrest
    · exact Or.inr (addToGroups_mem_preserved acc (key x) x (key f) l f hl hfl)

theorem keys_nodup_unique {κ β : Type} {gs : List (κ × β)} {k : κ} {a b : β}
    (hnd : (gs.map Prod.fst).Nodup) (ha : (k, a) ∈ gs) (hb : (k, b) ∈ gs) :
    a = b := by
  induction gs with
  | nil => exact absurd ha (List.not_mem_nil _)
  | cons g t ih =>
    simp only [List.map_cons, List.nodup_cons] at hnd
    rcases List.mem_cons.1 ha with ha' | ha'
    · rcases List.mem_cons.1 hb with hb' | hb'
      · rw [← ha'] at hb'
        injection hb' with h1 h2
        exact h2.symm
      · exfalso
        have hkmem : k ∈ t.map Prod.fst := List.mem_map_of_mem Prod.fst hb'
        rw [← ha'] at hnd
        exact hnd.1 hkmem
    · rcases List.mem_cons.1 hb with hb' | hb'
      · exfalso
        have hkmem : k ∈ t.map Prod.fst := List.mem_map_of_mem Prod.fst ha'
        rw [← hb'] at hnd
        exact hnd.1 hkmem
      · exact ih hnd.2 ha' hb'


theorem find?_first {α : Type} (p : α → Bool) :
    ∀ (l : List α) (i : Nat) (hi : i < l.length),
      p (l.get ⟨i, hi⟩) = true →
      (∀ j (hj2 : j < l.length), j < i → p (l.get ⟨j, hj2⟩) = false) →
      l.find? p = some (l.get ⟨i, hi⟩) := by
  intro l
  induction l with
  | nil => intro i hi; exact absurd hi (by simp)
  | cons a t ih =>
    intro i hi hp hnot
    cases i with
    | zero => exact List.find?_cons_of_pos t hp
    | succ i' =>
      have ha : p a = false := hnot 0 (by simp) (by omega)
      rw [List.find?_cons_of_neg t (by simp [ha])]
      exact ih i' (by simpa using hi) hp
        (fun j hj2 hji => hnot (j + 1) (by simpa using hj2) (by omega))

/-- **C7.**  `get_file_category` is deterministic (it is a pure function) and
total: for every extension string it returns one of the eleven fixed category
names; it returns `"Other"` for any extension found in no category's list; and
an extension listed under several categories resolves by first match in the
fixed table order — in particular `".json"`, listed under both `Code` and
`Data`, classifies as `Code`. -/
theorem get_file_category_total_first_match :
    (∀ ext : String, get_file_category ext ∈ allCategoryNames) ∧
    (∀ ext : String, (∀ p ∈ FILE_CATEGORIES, (strLower ext) ∉ p.2) →
      get_file_category ext = "Other") ∧
    (∀ (ext : String) (i : Nat) (hi : i < FILE_CATEGORIES.length),
      (FILE_CATEGORIES.get ⟨i, hi⟩).2.contains (strLower ext) = true →
      (∀ j (hj : j < FILE_CATEGORIES.length), j < i →
        (FILE_CATEGORIES.get ⟨j, hj⟩).2.contains (strLower ext) = false) →
      get_file_category ext = (FILE_CATEGORIES.get ⟨i, hi⟩).1) ∧
    get_file_category ".json" = "Code" := by
  refine ⟨?_, ?_, ?_, by decide⟩
  · intro ext
    unfold get_file_category
    cases hfind : FILE_CATEGORIES.find? (fun c => c.2.contains (strLower ext)) with
    | none => simp [allCategoryNames]
    | some c =>
      have hc : c ∈ FILE_CATEGORIES := List.mem_of_find?_eq_some hfind
      exact List.mem_append_left _ (List.mem_map_of_mem Prod.fst hc)
  · intro ext h
    unfold get_file_category
    have : FILE_CATEGORIES.find? (fun c => c.2.contains (strLower ext)) = none := by
      rw [List.find?_eq_none]
      intro c hc
      simp only [Bool.not_eq_true]
      rcases hcont : c.2.contains (strLower ext) with _ | _
      · rfl
      · exact absurd (by simpa using hcont) (h c hc)
    rw [this]
  · intro ext i hi hp hnot
    unfold get_file_category
    rw [find?_first (fun c => c.2.contains (strLower ext)) FILE_CATEGORIES i hi hp
      (fun j hj2 hji => hnot j hj2 hji)]

/-- Witness for C7: concrete applications discharging each hypothesis —
`".docx"` classifies into the category set, the unknown `".zzz"` falls to
`"Other"`, and the doubly-listed `".json"` resolves to `Code` (the first of
its two categories, index 5). -/
theorem get_file_category_total_first_match_witness :
    get_file_category ".docx" ∈ allCategoryNames ∧
    get_file_category ".zzz" = "Other" ∧
    get_file_category ".json" = "Code" :=
  ⟨get_file_category_total_first_match.1 ".docx",
    get_file_category_total_first_match.2.1 ".zzz" (by decide),
    get_file_category_total_first_match.2.2.1 ".json" 5 (by decide) (by decide)
      (by decide)⟩

/-- **C6.**  If the source folder's own directory name is itself one of the
fixed category names (e.g. a folder literally named `Documents`), the shallow
scan's category-parent exclusion — which compares each entry's parent, i.e.
the scan root itself, against the category set — drops every file:
`organize_files` selects zero files and returns the `noFiles` report with the
tree unchanged. -/
theorem organize_root_named_category (rootName : String) (fs : FS)
    (preview_only : Bool) (orc : FileInfo → Option String)
    (h : rootName ∈ categoryNames) :
    selectedFiles rootName fs = [] ∧
    organize_files rootName (some fs) preview_only orc = (.noFiles, some fs) := by
  have hc : categoryNames.contains rootName = true := by
    exact (List.elem_iff).2 h
  have hsel : selectedFiles rootName fs = [] := by
    rw [selectedFiles, List.filterMap_eq_nil_iff]
    intro n _
    cases n with
    | dir d cs => rfl
    | file f => simp [hc, h]
  refine ⟨hsel, ?_⟩
  have hgroups : files_to_move rootName fs = [] := by
    rw [files_to_move, hsel]; rfl
  simp [organize_files, hgroups]

/-- Witness for C6: a folder named `Documents` containing one plain text
file organizes nothing. -/
theorem organize_root_named_category_witness :
    selectedFiles "Documents" [.file ⟨1, "a.txt", 5, 2024, 1⟩] = [] ∧
    organize_files "Documents" (some [.file ⟨1, "a.txt", 5, 2024, 1⟩]) false orcNone =
      (.noFiles, some [.file ⟨1, "a.txt", 5, 2024, 1⟩]) :=
  organize_root_named_category "Documents" [.file ⟨1, "a.txt", 5, 2024, 1⟩]
    false orcNone (by decide)

/-- **C10.**  None of the six public operations ever surfaces an exception
past its boundary: each is a total function into its report type.  A
nonexistent resolved root is reported immediately as the `notFound` result
with no work attempted (the returned tree is `none`), and on an existing root
the result is never `notFound` — every other failure comes back as a report
value (`failure`/per-entry annotations), as the totality of these definitions
shows. -/
theorem operations_never_throw :
    (∀ rootName preview_only orc,
      organize_files rootName none preview_only orc = (.notFound, none)) ∧
    (∀ rootName fs preview_only orc,
      ((organize_files rootName (some fs) preview_only orc).1).isNotFound = false) ∧
    (∀ preview_only orc,
      organize_by_date none preview_only orc = (.notFound, none)) ∧
    (∀ fs preview_only orc,
      ((organize_by_date (some fs) preview_only orc).1).isNotFound = false) ∧
    (∀ canRemove, cleanup_empty_folders none canRemove = (.notFound, none)) ∧
    (∀ fs canRemove,
      ((cleanup_empty_folders (some fs) canRemove).1).isNotFound = false) ∧
    (find_duplicates none = .notFound) ∧
    (∀ fs, (find_duplicates (some fs)).isNotFound = false) ∧
    (∀ min_size_mb, find_large_files none min_size_mb = .notFound) ∧
    (∀ fs min_size_mb,
      (find_large_files (some fs) min_size_mb).isNotFound = false) ∧
    (get_folder_stats none = .notFound) ∧
    (∀ fs, (get_folder_stats (some fs)).isNotFound = false) := by
  refine ⟨fun _ _ _ => rfl, ?_, fun _ _ => rfl, ?_, fun _ => rfl, ?_, rfl, ?_,
    fun _ => rfl, ?_, rfl, ?_⟩
  · intro rootName fs preview_only orc
    rw [organize_files]
    split
    · rfl
    · split
      · rfl
      · split <;> rfl
  · intro fs preview_only orc
    rw [organize_by_date]
    split
    · rfl
    · split
      · rfl
      · split <;> rfl
  · intro fs canRemove
    rfl
  · intro fs
    rw [find_duplicates]
    split <;> rfl
  · intro fs min_size_mb
    rw [find_large_files]
    split <;> rfl
  · intro fs
    rfl

/-- **C9.**  `preview_only=True` performs no filesystem mutation — the
returned tree is exactly the input tree, no directory creation or move having
run — and the result is only a per-category summary showing at most the first
5 entries of each bucket plus an overflow count for the rest. -/
theorem organize_preview_frame :
    (∀ rootName fs orc, (organize_files rootName (some fs) true orc).2 = some fs) ∧
    (∀ rootName fs orc, files_to_move rootName fs ≠ [] →
      (organize_files rootName (some fs) true orc).1 =
        .preview (previewBuckets (sortByKey (files_to_move rootName fs)))) ∧
    (∀ gs : List (String × List FileInfo), ∀ b ∈ previewBuckets gs,
      b.shown.length ≤ 5 ∧ b.shown.length = min b.count 5 ∧ b.more = b.count - 5) := by
  refine ⟨?_, ?_, ?_⟩
  · intro rootName fs orc
    rw [organize_files]
    split <;> rfl
  · intro rootName fs orc h
    rw [organize_files]
    rw [if_neg (by simpa [List.isEmpty_iff] using h)]
    rfl
  · intro gs b hb
    rcases List.mem_map.1 hb with ⟨g, _, rfl⟩
    refine ⟨?_, ?_, rfl⟩
    · simp [List.length_take]
    · simp [List.length_take, Nat.min_comm]

/-- Witness for C9: previewing the demo root changes nothing and returns the
preview report. -/
theorem organize_preview_frame_witness :
    (organize_files "Desktop" (some demoFS) true orcNone).2 = some demoFS ∧
    (organize_files "Desktop" (some demoFS) true orcNone).1 =
      .preview (previewBuckets (sortByKey (files_to_move "Desktop" demoFS))) :=
  ⟨organize_preview_frame.1 "Desktop" demoFS orcNone,
    organize_preview_frame.2.1 "Desktop" demoFS orcNone (by decide)⟩

/-- Counterexample for **C1**: on a root of sixteen 2 MB files with a 1 MB
threshold, the reported match count is the true 16, but the reported aggregate
size is `15 * 2097152 = 31457280` — the sum over only the 15 displayed
entries — while the aggregate byte size of ALL matching files is
`16 * 2097152 = 33554432`.  The claim's "aggregate byte size of ALL matching
files, unaffected by the display cap" is false of the code. -/
theorem find_large_files_aggregate_cx :
    (largeReportOf (find_large_files (some fsLarge16) 1)).map
        (fun r => (r.matchCount, r.totalSizeShown, r.moreCount)) =
      some (16, 31457280, 1) ∧
    (((allFilesList fsLarge16).filter
        (fun f => 1 * 1024 * 1024 ≤ f.size)).map (fun f => f.size)).sum =
      33554432 ∧
    (31457280 : Nat) ≠ 33554432 := by
  refine ⟨by rfl, by rfl, by decide⟩

/-- **C1 (amended).**  `find_large_files` reports the true total number of
matching files (`size >= min_size_mb * 1024 * 1024`), unaffected by the
15-entry display cap, and caps the displayed list at 15 entries; but the
aggregate size it reports is accumulated over only the first 15 entries of
the size-sorted match list, not over all matches. -/
theorem find_large_files_amended (fs : FS) (mb : Nat)
    (h : (allFilesList fs).countP (fun f => mb * 1024 * 1024 ≤ f.size) ≠ 0) :
    (largeReportOf (find_large_files (some fs) mb)).map (fun r => r.matchCount) =
      some ((allFilesList fs).countP (fun f => mb * 1024 * 1024 ≤ f.size)) ∧
    (largeReportOf (find_large_files (some fs) mb)).map (fun r => r.totalSizeShown) =
      some (((((stableSort (fun x y => decide (y.size ≤ x.size))
        ((allFilesList fs).filter
          (fun f => mb * 1024 * 1024 ≤ f.size))).take 15).map
            (fun f => f.size)).sum) : Nat) ∧
    (∀ r, largeReportOf (find_large_files (some fs) mb) = some r →
      r.shown.length ≤ 15) := by
  have hne : ((allFilesList fs).filter
      (fun f => mb * 1024 * 1024 ≤ f.size)).isEmpty = false := by
    rw [List.countP_eq_length_filter] at h
    rcases hcase : (allFilesList fs).filter (fun f => mb * 1024 * 1024 ≤ f.size) with
      _ | _
    · rw [hcase] at h; simp at h
    · rw [hcase]; rfl
  rw [find_large_files]
  rw [if_neg (by simp [hne])]
  refine ⟨?_, rfl, ?_⟩
  · rw [List.countP_eq_length_filter]
    rfl
  · intro r hr
    simp only [largeReportOf, Option.some.injEq] at hr
    subst hr
    simp only [List.length_map, List.length_take]
    exact Nat.min_le_left _ _

/-- Witness for C1 (amended): the sixteen-file root. -/
theorem find_large_files_amended_witness :
    (largeReportOf (find_large_files (some fsLarge16) 1)).map
        (fun r => r.matchCount) =
      some ((allFilesList fsLarge16).countP
        (fun f => 1 * 1024 * 1024 ≤ f.size)) :=
  (find_large_files_amended fsLarge16 1 (by decide)).1

theorem bump_tail_eq (t : List (String × Nat × Nat)) (c : String) (sz : Nat)
    (h : ∀ x ∈ t, (x.1 == c) = false) :
    t.map (fun g => if g.1 == c then (g.1, g.2.1 + 1, g.2.2 + sz) else g) = t := by
  induction t with
  | nil => rfl
  | cons x xs ih =>
    have hx := h x (List.mem_cons_self x xs)
    simp only [List.map_cons, hx, Bool.false_eq_true, if_false, List.cons.injEq,
      true_and]
    exact ih fun y hy => h y (List.mem_cons_of_mem x hy)

theorem bumpCat_cons_ne (g : String × Nat × Nat) (t : List (String × Nat × Nat))
    (c : String) (sz : Nat) (h : (g.1 == c) = false) :
    bumpCat (g :: t) c sz = g :: bumpCat t c sz := by
  have hneg : ¬ ((g.1 == c) = true) := by simp [h]
  unfold bumpCat
  simp only [List.any_cons, h, Bool.false_or]
  by_cases ht : t.any (fun x => x.1 == c)
  · rw [if_pos ht, if_pos ht]
    simp only [List.map_cons, if_neg hneg]
  · rw [if_neg ht, if_neg ht]
    rfl

theorem bumpCat_keys (acc : List (String × Nat × Nat)) (c : String) (sz : Nat) :
    (bumpCat acc c sz).map Prod.fst =
      if acc.any (fun g => g.1 == c) then acc.map Prod.fst
      else acc.map Prod.fst ++ [c] := by
  unfold bumpCat
  split
  · rw [List.map_map]
    refine List.map_congr_left fun g _ => ?_
    simp only [Function.comp_apply]
    split <;> rfl
  · simp

theorem bumpCat_keys_nodup (acc : List (String × Nat × Nat)) (c : String) (sz : Nat)
    (hnd : (acc.map Prod.fst).Nodup) :
    ((bumpCat acc c sz).map Prod.fst).Nodup := by
  rw [bumpCat_keys]
  split
  · exact hnd
  · rename_i hany
    have hc : c ∉ acc.map Prod.fst := by
      intro hmem
      rcases List.mem_map.1 hmem with ⟨g, hg, hgk⟩
      exact hany (List.any_eq_true.2 ⟨g, hg, by simp [hgk]⟩)
    rw [List.nodup_append]
    refine ⟨hnd, by simp, fun a ha hb => ?_⟩
    simp only [List.mem_singleton] at hb
    exact hc (hb ▸ ha)

theorem bumpCat_sums (c : String) (sz : Nat) :
    ∀ acc : List (String × Nat × Nat), (acc.map Prod.fst).Nodup →
      ((bumpCat acc c sz).map (fun g => g.2.1)).sum =
        (acc.map (fun g => g.2.1)).sum + 1 ∧
      ((bumpCat acc c sz).map (fun g => g.2.2)).sum =
        (acc.map (fun g => g.2.2)).sum + sz := by
  intro acc
  induction acc with
  | nil => intro _; exact ⟨by simp [bumpCat], by simp [bumpCat]⟩
  | cons g t ih =>
    intro hnd
    simp only [List.map_cons, List.nodup_cons] at hnd
    by_cases hg : (g.1 == c) = true
    · have hknot : ∀ x ∈ t, (x.1 == c) = false := by
        intro x hx
        have hne : x.1 ≠ g.1 := fun he => hnd.1 (he ▸ List.mem_map_of_mem Prod.fst hx)
        have hgc : g.1 = c := eq_of_beq hg
        rw [← hgc]
        exact beq_eq_false_iff_ne.2 hne
      have hany : (g :: t).any (fun x => x.1 == c) = true := by
        simp only [List.any_cons, hg, Bool.true_or]
      unfold bumpCat
      rw [if_pos hany]
      simp only [List.map_cons, if_pos hg, bump_tail_eq t c sz hknot,
        List.sum_cons]
      constructor <;> omega
    · rw [bumpCat_cons_ne g t c sz (by simpa using hg)]
      rcases ih hnd.2 with ⟨ih1, ih2⟩
      simp only [List.map_cons, List.sum_cons, ih1, ih2]
      constructor <;> omega

theorem statsCats_sums (files : List FileInfo) :
    ∀ acc : List (String × Nat × Nat), (acc.map Prod.fst).Nodup →
      ((files.foldl
        (fun a f => bumpCat a (get_file_category (pathSuffix f.name)) f.size)
          acc).map Prod.fst).Nodup ∧
      ((files.foldl
        (fun a f => bumpCat a (get_file_category (pathSuffix f.name)) f.size)
          acc).map (fun g => g.2.1)).sum =
        (acc.map (fun g => g.2.1)).sum + files.length ∧
      ((files.foldl
        (fun a f => bumpCat a (get_file_category (pathSuffix f.name)) f.size)
          acc).map (fun g => g.2.2)).sum =
        (acc.map (fun g => g.2.2)).sum + (files.map (fun f => f.size)).sum := by
  induction files with
  | nil => intro acc h; exact ⟨h, by simp, by simp⟩
  | cons f rest ih =>
    intro acc h
    have h1 := bumpCat_keys_nodup acc (get_file_category (pathSuffix f.name)) f.size h
    rcases bumpCat_sums (get_file_category (pathSuffix f.name)) f.size acc h with
      ⟨h2, h3⟩
    rcases ih (bumpCat acc (get_file_category (pathSuffix f.name)) f.size) h1 with
      ⟨ih1, ih2, ih3⟩
    refine ⟨ih1, ?_, ?_⟩
    · simp only [List.foldl_cons] at ih2 ⊢
      rw [ih2, h2, List.length_cons]
      omega
    · simp only [List.foldl_cons] at ih3 ⊢
      rw [ih3, h3, List.map_cons, List.sum_cons]
      omega

/-- **C8.**  The stats report is internally consistent: summing the
per-category file counts gives the reported total file count, and summing the
per-category byte totals gives the reported total size. -/
theorem get_folder_stats_consistent (fs : FS) (r : StatsReport)
    (h : get_folder_stats (some fs) = .ok r) :
    (r.by_category.map (fun g => g.2.1)).sum = r.total_files ∧
    (r.by_category.map (fun g => g.2.2)).sum = r.total_size := by
  rw [get_folder_stats] at h
  simp only [StatsResult.ok.injEq] at h
  subst h
  rcases statsCats_sums (allFilesList fs) [] (by simp) with ⟨_, h2, h3⟩
  exact ⟨by simpa using h2, by simpa using h3⟩

/-- Witness for C8: the demo root's stats add up (4 files, 1036288 bytes). -/
theorem get_folder_stats_consistent_witness :
    (([("Documents", 1, 10240), ("Images", 2, 1024000), ("Code", 1, 2048)].map
        (fun g => g.2.1)).sum = 4 ∧
      ([("Documents", 1, 10240), ("Images", 2, 1024000),
        ("Code", 1, 2048)].map (fun g => g.2.2)).sum = 1036288) :=
  get_folder_stats_consistent demoFS
    { total_files := 4
      total_size := 1036288
      by_category := [("Documents", 1, 10240), ("Images", 2, 1024000),
        ("Code", 1, 2048)]
      by_extension := [(".pdf", 1), (".png", 2), (".py", 1)]
      catsBySize := [("Images", 2, 1024000), ("Documents", 1, 10240),
        ("Code", 1, 2048)]
      topExts := [(".png", 2), (".pdf", 1), (".py", 1)] }
    (by rfl)

theorem stableInsert_perm {α : Type} (le : α → α → Bool) (x : α) (l : List α) :
    List.Perm (stableInsert le x l) (x :: l) := by
  induction l with
  | nil => exact List.Perm.refl _
  | cons y ys ih =>
    unfold stableInsert
    split
    · exact List.Perm.refl _
    · exact (List.Perm.cons y ih).trans (List.Perm.swap x y ys)

theorem stableSort_perm {α : Type} (le : α → α → Bool) (l : List α) :
    List.Perm (stableSort le l) l := by
  induction l with
  | nil => exact List.Perm.refl _
  | cons x xs ih =>
    exact (stableInsert_perm le x (stableSort le xs)).trans (List.Perm.cons x ih)

theorem mem_stableSort {α : Type} (le : α → α → Bool) (l : List α) (a : α) :
    a ∈ stableSort le l ↔ a ∈ l :=
  (stableSort_perm le l).mem_iff

theorem one_lt_length_of_two_mem {α : Type} {l : List α} {a b : α}
    (ha : a ∈ l) (hb : b ∈ l) (hne : a ≠ b) : 1 < l.length := by
  cases l with
  | nil => exact absurd ha (List.not_mem_nil a)
  | cons x t =>
    cases t with
    | nil =>
      simp only [List.mem_singleton] at ha hb
      exact absurd (ha.trans hb.symm) hne
    | cons y u => simp

theorem dupGroupsOf_eq (fs : FS) :
    dupGroupsOf (find_duplicates (some fs)) = dupGroups (allFilesList fs) := by
  rw [find_duplicates]
  split
  · rename_i hemp
    rw [List.isEmpty_iff.1 hemp]
    rfl
  · rfl

/-- **C5.**  `find_duplicates` places two distinct files of a root in the same
duplicate-candidate group if and only if their byte sizes are exactly equal
and nonzero: grouping is by size alone, with no name or content comparison
(sizes determine the grouping completely). -/
theorem find_duplicates_size_iff (fs : FS) (f g : FileInfo)
    (hf : f ∈ allFilesList fs) (hg : g ∈ allFilesList fs) (hne : f ≠ g) :
    (∃ p ∈ dupGroupsOf (find_duplicates (some fs)), f ∈ p.2 ∧ g ∈ p.2) ↔
      (f.size = g.size ∧ f.size ≠ 0) := by
  rw [dupGroupsOf_eq]
  constructor
  · rintro ⟨p, hp, hfp, hgp⟩
    rw [dupGroups, List.mem_filter] at hp
    have hfk : f.size = p.1 :=
      groupBy_key_sound (fun f => f.size) (allFilesList fs) p hp.1 f hfp
    have hgk : g.size = p.1 :=
      groupBy_key_sound (fun f => f.size) (allFilesList fs) p hp.1 g hgp
    have hpos : 0 < p.1 := by
      have := hp.2
      simp only [Bool.and_eq_true, decide_eq_true_eq] at this
      exact this.2
    exact ⟨hfk.trans hgk.symm, by omega⟩
  · rintro ⟨hsz, hnz⟩
    rcases groupBy_mem_of_mem (fun f => f.size) (allFilesList fs) f hf with
      ⟨l, hl, hfl⟩
    rcases groupBy_mem_of_mem (fun f => f.size) (allFilesList fs) g hg with
      ⟨l', hl', hgl⟩
    rw [← hsz] at hl'
    have hll : l = l' :=
      keys_nodup_unique (groupBy_keys_nodup (fun f => f.size) (allFilesList fs))
        hl hl'
    subst hll
    refine ⟨(f.size, l), ?_, hfl, hgl⟩
    rw [dupGroups, List.mem_filter]
    refine ⟨hl, ?_⟩
    simp only [Bool.and_eq_true, decide_eq_true_eq]
    exact ⟨one_lt_length_of_two_mem hfl hgl hne, by omega⟩

/-- Witness for C5: in the demo root, `photo.png` and `photo_copy.png`
(both 512000 bytes) share a duplicate-candidate group. -/
theorem find_duplicates_size_iff_witness :
    (∃ p ∈ dupGroupsOf (find_duplicates (some demoFS)),
        (⟨2, "photo.png", 512000, 2024, 3⟩ : FileInfo) ∈ p.2 ∧
        (⟨3, "photo_copy.png", 512000, 2024, 4⟩ : FileInfo) ∈ p.2) ↔
      ((512000 : Nat) = 512000 ∧ (512000 : Nat) ≠ 0) :=
  find_duplicates_size_iff demoFS
    ⟨2, "photo.png", 512000, 2024, 3⟩ ⟨3, "photo_copy.png", 512000, 2024, 4⟩
    (by decide) (by decide) (by decide)

theorem execFiles_spec (d : String) (orc : FileInfo → Option String) :
    ∀ (files : List FileInfo) (fs : FS),
      (execFiles d orc fs files).2.1 =
        (files.filter (fun f => (orc f).isSome)).map
          (fun f => f.name ++ ": " ++ ((orc f).getD "")) ∧
      (execFiles d orc fs files).2.2 = files.countP (fun f => (orc f).isNone) := by
  intro files
  induction files with
  | nil => intro fs; exact ⟨rfl, rfl⟩
  | cons f rest ih =>
    intro fs
    cases horc : orc f with
    | some e =>
      simp only [execFiles, horc]
      rcases ih fs with ⟨ih1, ih2⟩
      constructor
      · simp [List.filter_cons, horc, ih1]
      · simp [List.countP_cons, horc, ih2]
    | none =>
      simp only [execFiles, horc]
      rcases ih (moveTopIntoDir fs d f) with ⟨ih1, ih2⟩
      constructor
      · simp [List.filter_cons, horc, ih1]
      · simp [List.countP_cons, horc, ih2]

theorem execGroups_spec (orc : FileInfo → Option String) :
    ∀ (groups : List (String × List FileInfo)) (fs fs' : FS)
      (b : List (String × Nat)) (sk : List String) (t : Nat),
      execGroups orc fs groups = .ok fs' b sk t →
      sk = groups.flatMap (fun g => (g.2.filter (fun f => (orc f).isSome)).map
            (fun f => f.name ++ ": " ++ ((orc f).getD ""))) ∧
      t = (groups.flatMap (fun g => g.2)).countP (fun f => (orc f).isNone) ∧
      b = groups.map (fun g => (g.1, g.2.countP (fun f => (orc f).isNone))) := by
  intro groups
  induction groups with
  | nil =>
    intro fs fs' b sk t h
    simp only [execGroups, ExecOut.ok.injEq] at h
    exact ⟨h.2.2.1.symm, h.2.2.2.symm, h.2.1.symm⟩
  | cons g rest ih =>
    intro fs fs' b sk t h
    obtain ⟨cat, files⟩ := g
    rw [execGroups] at h
    cases hmk : mkdirExistOk fs cat with
    | none =>
      simp only [hmk] at h
      exact ExecOut.noConfusion h
    | some fs1 =>
      simp only [hmk] at h
      cases hrec : execGroups orc (execFiles cat orc fs1 files).1 rest with
      | err fs3 msg =>
        simp only [hrec] at h
        exact ExecOut.noConfusion h
      | ok fs3 b3 sk3 t3 =>
        simp only [hrec] at h
        simp only [ExecOut.ok.injEq] at h
        obtain ⟨-, hb, hsk, ht⟩ := h
        rcases ih (execFiles cat orc fs1 files).1 fs3 b3 sk3 t3 hrec with
          ⟨ihsk, iht, ihb⟩
        rcases execFiles_spec cat orc files fs1 with ⟨e1, e2⟩
        refine ⟨?_, ?_, ?_⟩
        · rw [← hsk, ihsk, e1, List.flatMap_cons]
        · rw [← ht, iht, e2, List.flatMap_cons, List.countP_append]
        · rw [← hb, ihb, List.map_cons, e2]

theorem execFilesDate_spec (a b : String) (orc : FileInfo → Option String) :
    ∀ (files : List FileInfo) (fs : FS),
      (execFilesDate a b orc fs files).2 =
        files.countP (fun f => (orc f).isNone) := by
  intro files
  induction files with
  | nil => intro fs; rfl
  | cons f rest ih =>
    intro fs
    cases horc : orc f with
    | some e =>
      simp only [execFilesDate, horc]
      simp [List.countP_cons, horc, ih fs]
    | none =>
      simp only [execFilesDate, horc]
      simp [List.countP_cons, horc, ih (moveTopIntoDir2 fs a b f)]

theorem execGroupsDate_spec (orc : FileInfo → Option String) :
    ∀ (groups : List (String × List FileInfo)) (fs fs' : FS)
      (bk : List (String × Nat)) (t : Nat),
      execGroupsDate orc fs groups = .ok fs' bk t →
      t = (groups.flatMap (fun g => g.2)).countP (fun f => (orc f).isNone) ∧
      bk = groups.map (fun g => (g.1, g.2.length)) := by
  intro groups
  induction groups with
  | nil =>
    intro fs fs' bk t h
    simp only [execGroupsDate, ExecOutDate.ok.injEq] at h
    exact ⟨h.2.2.symm, h.2.1.symm⟩
  | cons g rest ih =>
    intro fs fs' bk t h
    obtain ⟨key, files⟩ := g
    rw [execGroupsDate] at h
    cases hmk : mkdirParents2 fs ((splitOnSlash key).getD 0 "")
        ((splitOnSlash key).getD 1 "") with
    | none =>
      simp only [hmk] at h
      exact ExecOutDate.noConfusion h
    | some fs1 =>
      simp only [hmk] at h
      cases hrec : execGroupsDate orc
          (execFilesDate ((splitOnSlash key).getD 0 "")
            ((splitOnSlash key).getD 1 "") orc fs1 files).1 rest with
      | err fs3 msg =>
        simp only [hrec] at h
        exact ExecOutDate.noConfusion h
      | ok fs3 b3 t3 =>
        simp only [hrec] at h
        simp only [ExecOutDate.ok.injEq] at h
        obtain ⟨-, hb, ht⟩ := h
        rcases ih _ fs3 b3 t3 hrec with ⟨iht, ihb⟩
        refine ⟨?_, ?_⟩
        · rw [← ht, iht, List.flatMap_cons, List.countP_append,
            execFilesDate_spec]
        · rw [← hb, ihb, List.map_cons]

theorem sum_map_snd_lengths (groups : List (String × List FileInfo)) :
    ((groups.map (fun g => (g.1, g.2.length))).map Prod.snd).sum =
      (groups.flatMap (fun g => g.2)).length := by
  induction groups with
  | nil => rfl
  | cons g rest ih =>
    simp only [List.map_cons, List.sum_cons, List.flatMap_cons,
      List.length_append, ih]

/-- The full plan of `organize_files` — the sorted buckets flattened — is a
permutation of the selected files. -/
theorem sorted_plan_perm (rootName : String) (fs : FS) :
    List.Perm ((sortByKey (files_to_move rootName fs)).flatMap (fun g => g.2))
      (selectedFiles rootName fs) := by
  rw [sortByKey]
  exact (List.Perm.flatMap_right _
    (stableSort_perm _ (files_to_move rootName fs))).trans
    (groupBy_flat_perm typeKey (selectedFiles rootName fs))

theorem sorted_date_plan_perm (fs : FS) :
    List.Perm ((sortByKey (files_by_date fs)).flatMap (fun g => g.2))
      (dateSelected fs) := by
  rw [sortByKey]
  exact (List.Perm.flatMap_right _
    (stableSort_perm _ (files_by_date fs))).trans
    (groupBy_flat_perm dateKey (dateSelected fs))

/-- **C2 (amended).**  For `organize_files`, every per-entry move failure is
caught, recorded in the report's skip list as `f"{name}: {reason}"`, and does
not abort the operation: the returned `totalMoved` counts exactly the selected
entries whose move succeeded, so all remaining entries were still processed.
For `organize_by_date`, a per-entry move failure is caught and does not abort
the remaining entries — `totalMoved` again counts exactly the successful
moves — but contrary to the claim it is NOT recorded: the bare
`except: pass` drops it, and the report has no skip list (see the
counterexample `organize_by_date_silent_skip_cx`). -/
theorem organize_move_failures (rootName : String) (fs : FS)
    (orc : FileInfo → Option String) :
    (∀ out b t sk,
      organize_files rootName (some fs) false orc = (.done b t sk, out) →
      (∀ f ∈ selectedFiles rootName fs, ∀ e, orc f = some e →
        (f.name ++ ": " ++ e) ∈ sk) ∧
      t = (selectedFiles rootName fs).countP (fun f => (orc f).isNone)) ∧
    (∀ out b t,
      organize_by_date (some fs) false orc = (.done b t, out) →
      t = (dateSelected fs).countP (fun f => (orc f).isNone) ∧
      (b.map Prod.snd).sum = (dateSelected fs).length) := by
  constructor
  · intro out b t sk h
    rw [organize_files] at h
    by_cases hemp : (files_to_move rootName fs).isEmpty
    · rw [if_pos hemp] at h
      exact absurd (congrArg Prod.fst h) (by simp)
    · rw [if_neg hemp, if_neg (by simp)] at h
      cases hexec : execGroups orc fs (sortByKey (files_to_move rootName fs)) with
      | err fs3 msg =>
        rw [hexec] at h
        exact absurd (congrArg Prod.fst h) (by simp)
      | ok fs3 b3 sk3 t3 =>
        rw [hexec] at h
        have hinj := congrArg Prod.fst h
        simp only [OrgResult.done.injEq] at hinj
        obtain ⟨hb, ht, hsk⟩ := hinj
        rcases execGroups_spec orc (sortByKey (files_to_move rootName fs))
          fs fs3 b3 sk3 t3 hexec with ⟨hsk3, ht3, -⟩
        constructor
        · intro f hf e he
          rcases groupBy_mem_of_mem typeKey (selectedFiles rootName fs) f hf with
            ⟨l, hl, hfl⟩
          have hls : (typeKey f, l) ∈ sortByKey (files_to_move rootName fs) := by
            rw [sortByKey]
            exact (mem_stableSort _ _ _).2 hl
          rw [← hsk, hsk3]
          refine List.mem_flatMap.2 ⟨(typeKey f, l), hls, ?_⟩
          refine List.mem_map.2 ⟨f, ?_, ?_⟩
          · exact List.mem_filter.2 ⟨hfl, by simp [he]⟩
          · rw [he]
            rfl
        · rw [← ht, ht3]
          exact (sorted_plan_perm rootName fs).countP_eq _
  · intro out b t h
    rw [organize_by_date] at h
    by_cases hemp : (files_by_date fs).isEmpty
    · rw [if_pos hemp] at h
      exact absurd (congrArg Prod.fst h) (by simp)
    · rw [if_neg hemp, if_neg (by simp)] at h
      cases hexec : execGroupsDate orc fs (sortByKey (files_by_date fs)) with
      | err fs3 msg =>
        rw [hexec] at h
        exact absurd (congrArg Prod.fst h) (by simp)
      | ok fs3 b3 t3 =>
        rw [hexec] at h
        have hinj := congrArg Prod.fst h
        simp only [DateResult.done.injEq] at hinj
        obtain ⟨hb, ht⟩ := hinj
        rcases execGroupsDate_spec orc (sortByKey (files_by_date fs))
          fs fs3 b3 t3 hexec with ⟨ht3, hb3⟩
        constructor
        · rw [← ht, ht3]
          exact (sorted_date_plan_perm fs).countP_eq _
        · rw [← hb, hb3, sum_map_snd_lengths]
          exact (sorted_date_plan_perm fs).length_eq

/-- Witness for C2 (amended): on a two-file root where the move of `a.txt`
raises `Permission denied`, the skip list records `"a.txt: Permission denied"`
and the other file is still moved (`totalMoved = 1`); `organize_by_date` on
the same root still moves the surviving file. -/
theorem organize_move_failures_witness :
    ((∀ f ∈ selectedFiles "root" fsDate2, ∀ e, orcFail1 f = some e →
        (f.name ++ ": " ++ e) ∈ ["a.txt: Permission denied"]) ∧
      1 = (selectedFiles "root" fsDate2).countP (fun f => (orcFail1 f).isNone)) ∧
    (1 = (dateSelected fsDate2).countP (fun f => (orcFail1 f).isNone) ∧
      ([("2024/03 - March", 2)].map Prod.snd).sum = (dateSelected fsDate2).length) :=
  ⟨(organize_move_failures "root" fsDate2 orcFail1).1
      (some [.file ⟨1, "a.txt", 5, 2024, 3⟩,
        .dir "Documents" [.file ⟨2, "b.txt", 7, 2024, 3⟩]])
      [("Documents", 1)] 1 ["a.txt: Permission denied"] (by rfl),
    (organize_move_failures "root" fsDate2 orcFail1).2
      (some [.file ⟨1, "a.txt", 5, 2024, 3⟩,
        .dir "2024" [.dir "03 - March" [.file ⟨2, "b.txt", 7, 2024, 3⟩]]])
      [("2024/03 - March", 2)] 1 (by rfl)⟩

/-- Counterexample for **C2**: `organize_by_date` does not record failed moves.
On the two-file root `fsDate2`, failing the move of `a.txt` (with reason
`Permission denied`) and failing the move of `b.txt` (with reason `Disk full`)
produce the IDENTICAL report — bucket line `("2024/03 - March", 2)` and
`totalMoved = 1` — so the returned report records neither which move failed
nor its reason, contradicting "recorded as a skip with its reason in the
returned report" for this organizer. -/
theorem organize_by_date_silent_skip_cx :
    (organize_by_date (some fsDate2) false orcFail1).1 =
      (organize_by_date (some fsDate2) false orcFail2).1 ∧
    (organize_by_date (some fsDate2) false orcFail1).1 =
      .done [("2024/03 - March", 2)] 1 ∧
    orcFail1 ⟨1, "a.txt", 5, 2024, 3⟩ = some "Permission denied" ∧
    orcFail2 ⟨1, "a.txt", 5, 2024, 3⟩ = none ∧
    orcFail2 ⟨2, "b.txt", 7, 2024, 3⟩ = some "Disk full" := by
  refine ⟨by rfl, by rfl, by rfl, by rfl, by rfl⟩

theorem selectedFiles_eq_filter (rootName : String) (fs : FS) :
    selectedFiles rootName fs = (topFiles fs).filter
      (fun f => !isHiddenName f.name && !categoryNames.contains rootName) := by
  induction fs with
  | nil => rfl
  | cons n ns ih =>
    cases n with
    | dir d cs =>
      simp only [selectedFiles, topFiles, List.filterMap_cons] at ih ⊢
      exact ih
    | file f =>
      simp only [selectedFiles, topFiles, List.filterMap_cons] at ih ⊢
      by_cases h1 : isHiddenName f.name
      · simpa [h1] using ih
      · by_cases h2 : rootName ∈ categoryNames
        · have hc2 : categoryNames.contains rootName = true := List.elem_iff.2 h2
          simpa [h1, h2, hc2] using ih
        · have hc2 : categoryNames.contains rootName = false := by
            simpa using h2
          simpa [h1, h2, hc2] using ih

theorem topFiles_updateDirChildren (fs : FS) (d : String) (cs : List Node) :
    topFiles (updateDirChildren fs d cs) = topFiles fs := by
  rw [updateDirChildren, topFiles, topFiles, List.filterMap_map]
  refine List.filterMap_congr fun n _ => ?_
  cases n with
  | file f => rfl
  | dir dn old =>
    simp only [Function.comp_apply]
    by_cases hd : (dn == d) = true
    · rw [if_pos hd]
    · rw [if_neg hd]

theorem topFiles_removeTopFile (fs : FS) (i : Nat) :
    topFiles (removeTopFile fs i) = (topFiles fs).filter (fun f => f.ident != i) := by
  induction fs with
  | nil => rfl
  | cons n ns ih =>
    cases n with
    | dir dn old =>
      have h1 : removeTopFile (Node.dir dn old :: ns) i =
          Node.dir dn old :: removeTopFile ns i := by
        simp [removeTopFile, List.filter_cons]
      rw [h1]
      simp only [topFiles, List.filterMap_cons] at ih ⊢
      exact ih
    | file f =>
      rcases hf : f.ident != i with _ | _
      · have h1 : removeTopFile (Node.file f :: ns) i = removeTopFile ns i := by
          simp [removeTopFile, List.filter_cons, hf]
        rw [h1]
        simp only [topFiles, List.filterMap_cons] at ih ⊢
        simp only [List.filter_cons, hf, Bool.false_eq_true, if_false]
        exact ih
      · have h1 : removeTopFile (Node.file f :: ns) i =
            Node.file f :: removeTopFile ns i := by
          simp [removeTopFile, List.filter_cons, hf]
        rw [h1]
        simp only [topFiles, List.filterMap_cons] at ih ⊢
        simp only [List.filter_cons, hf, if_true]
        rw [ih]

theorem topFiles_append (l₁ l₂ : FS) :
    topFiles (l₁ ++ l₂) = topFiles l₁ ++ topFiles l₂ := by
  simp [topFiles, List.filterMap_append]

theorem topFiles_mkdir (fs : FS) (d : String) (fs₁ : FS)
    (h : mkdirExistOk fs d = some fs₁) : topFiles fs₁ = topFiles fs := by
  unfold mkdirExistOk at h
  split at h
  · exact absurd h (by simp)
  · split at h
    · simp only [Option.some.injEq] at h
      rw [← h]
    · simp only [Option.some.injEq] at h
      rw [← h, topFiles_append]
      simp [topFiles]

theorem topFiles_moveTopIntoDir (fs : FS) (d : String) (f : FileInfo) :
    topFiles (moveTopIntoDir fs d f) =
      (topFiles fs).filter (fun g => g.ident != f.ident) := by
  rw [moveTopIntoDir, topFiles_updateDirChildren, topFiles_removeTopFile]

theorem execFiles_topFiles_sub (d : String) (orc : FileInfo → Option String) :
    ∀ (files : List FileInfo) (fs : FS) (g : FileInfo),
      g ∈ topFiles (execFiles d orc fs files).1 →
      g ∈ topFiles fs ∧ ∀ f ∈ files, orc f = none → g.ident ≠ f.ident := by
  intro files
  induction files with
  | nil =>
    intro fs g hg
    exact ⟨hg, fun f hf => absurd hf (List.not_mem_nil f)⟩
  | cons f rest ih =>
    intro fs g hg
    cases horc : orc f with
    | some e =>
      simp only [execFiles, horc] at hg
      rcases ih fs g hg with ⟨h1, h2⟩
      refine ⟨h1, fun f' hf' hn => ?_⟩
      rcases List.mem_cons.1 hf' with rfl | hf'
      · rw [horc] at hn; exact absurd hn (by simp)
      · exact h2 f' hf' hn
    | none =>
      simp only [execFiles, horc] at hg
      rcases ih (moveTopIntoDir fs d f) g hg with ⟨h1, h2⟩
      rw [topFiles_moveTopIntoDir] at h1
      rcases List.mem_filter.1 h1 with ⟨h1a, h1b⟩
      refine ⟨h1a, fun f' hf' hn => ?_⟩
      rcases List.mem_cons.1 hf' with rfl | hf'
      · simpa using h1b
      · exact h2 f' hf' hn

theorem execGroups_topFiles_sub (orc : FileInfo → Option String) :
    ∀ (groups : List (String × List FileInfo)) (fs fs' : FS)
      (b : List (String × Nat)) (sk : List String) (t : Nat),
      execGroups orc fs groups = .ok fs' b sk t →
      ∀ g ∈ topFiles fs', g ∈ topFiles fs ∧
        ∀ p ∈ groups, ∀ f ∈ p.2, orc f = none → g.ident ≠ f.ident := by
  intro groups
  induction groups with
  | nil =>
    intro fs fs' b sk t h g hg
    simp only [execGroups, ExecOut.ok.injEq] at h
    rw [← h.1] at hg
    exact ⟨hg, fun p hp => absurd hp (List.not_mem_nil p)⟩
  | cons grp rest ih =>
    intro fs fs' b sk t h g hg
    obtain ⟨cat, files⟩ := grp
    rw [execGroups] at h
    cases hmk : mkdirExistOk fs cat with
    | none =>
      simp only [hmk] at h
      exact ExecOut.noConfusion h
    | some fs1 =>
      simp only [hmk] at h
      cases hrec : execGroups orc (execFiles cat orc fs1 files).1 rest with
      | err fs3 msg =>
        simp only [hrec] at h
        exact ExecOut.noConfusion h
      | ok fs3 b3 sk3 t3 =>
        simp only [hrec] at h
        simp only [ExecOut.ok.injEq] at h
        obtain ⟨hfs, -, -, -⟩ := h
        rw [← hfs] at hg
        rcases ih (execFiles cat orc fs1 files).1 fs3 b3 sk3 t3 hrec g hg with
          ⟨h1, h2⟩
        rcases execFiles_topFiles_sub cat orc files fs1 g h1 with ⟨h3, h4⟩
        rw [topFiles_mkdir fs cat fs1 hmk] at h3
        refine ⟨h3, fun p hp f hf hn => ?_⟩
        rcases List.mem_cons.1 hp with rfl | hp
        · exact h4 f hf hn
        · exact h2 p hp f hf hn

theorem execGroups_skipped_nil (orc : FileInfo → Option String)
    (groups : List (String × List FileInfo)) (fs fs' : FS)
    (b : List (String × Nat)) (t : Nat)
    (h : execGroups orc fs groups = .ok fs' b [] t) :
    ∀ p ∈ groups, ∀ f ∈ p.2, orc f = none := by
  rcases execGroups_spec orc groups fs fs' b [] t h with ⟨hsk, -, -⟩
  intro p hp f hf
  rcases horc : orc f with _ | e
  · rfl
  · exfalso
    have hmem : (f.name ++ ": " ++ ((orc f).getD "")) ∈
        ([] : List String) := by
      rw [hsk]
      refine List.mem_flatMap.2 ⟨p, hp, ?_⟩
      exact List.mem_map.2 ⟨f, List.mem_filter.2 ⟨hf, by simp [horc]⟩, rfl⟩
    exact absurd hmem (List.not_mem_nil _)

/-- **C3.**  Idempotence of the type organizer in create-in-source mode: if a
first run of `organize_files` completes with every move succeeding (a `done`
report with an empty skip list), then a second run over the resulting root has
an empty plan — zero files selected to move — because every moved file now
sits inside a category subfolder, which the shallow scan skips, and every
file left at the top level is one the scan excludes (hidden, or excluded
because the root itself is category-named).  The second run therefore returns
the `noFiles` report and leaves the tree untouched. -/
theorem organize_files_idempotent (rootName : String) (fs fs' : FS)
    (orc orc' : FileInfo → Option String) (p : Bool)
    (b : List (String × Nat)) (t : Nat)
    (h : organize_files rootName (some fs) false orc = (.done b t [], some fs')) :
    files_to_move rootName fs' = [] ∧
    organize_files rootName (some fs') p orc' = (.noFiles, some fs') := by
  rw [organize_files] at h
  by_cases hemp : (files_to_move rootName fs).isEmpty
  · rw [if_pos hemp] at h
    exact absurd (congrArg Prod.fst h) (by simp)
  · rw [if_neg hemp, if_neg (by simp)] at h
    cases hexec : execGroups orc fs (sortByKey (files_to_move rootName fs)) with
    | err fs3 msg =>
      rw [hexec] at h
      exact absurd (congrArg Prod.fst h) (by simp)
    | ok fs3 b3 sk3 t3 =>
      rw [hexec] at h
      have h1 := congrArg Prod.fst h
      have h2 := congrArg Prod.snd h
      simp only [OrgResult.done.injEq] at h1
      simp only [Option.some.injEq] at h2
      obtain ⟨-, -, hsk⟩ := h1
      rw [hsk] at hexec
      rw [← h2]
      have hall := execGroups_skipped_nil orc
        (sortByKey (files_to_move rootName fs)) fs fs3 b3 t3 hexec
      have hsel : selectedFiles rootName fs3 = [] := by
        rw [selectedFiles_eq_filter, List.filter_eq_nil_iff]
        intro g hg
        by_cases hh : isHiddenName g.name
        · simp [hh]
        · by_cases hc : categoryNames.contains rootName
          · have hm : rootName ∈ categoryNames := List.elem_iff.1 hc
            simp [hh, hc, hm]
          · have hm : rootName ∉ categoryNames := fun hmm => hc (List.elem_iff.2 hmm)
            exfalso
            rcases execGroups_topFiles_sub orc
              (sortByKey (files_to_move rootName fs)) fs fs3 b3 [] t3 hexec g hg
              with ⟨hgfs, hprop⟩
            have hgsel : g ∈ selectedFiles rootName fs := by
              rw [selectedFiles_eq_filter, List.mem_filter]
              exact ⟨hgfs, by simp [hh, hm, hc]⟩
            rcases groupBy_mem_of_mem typeKey (selectedFiles rootName fs) g hgsel
              with ⟨l, hl, hgl⟩
            have hls : (typeKey g, l) ∈ sortByKey (files_to_move rootName fs) := by
              rw [sortByKey]
              exact (mem_stableSort _ _ _).2 hl
            exact hprop (typeKey g, l) hls g hgl (hall (typeKey g, l) hls g hgl) rfl
      have hgr : files_to_move rootName fs3 = [] := by
        rw [files_to_move, hsel]
        rfl
      refine ⟨hgr, ?_⟩
      rw [organize_files, if_pos (by simp [hgr])]

/-- Witness for C3: a clean run on a one-file root, then an empty second
plan. -/
theorem organize_files_idempotent_witness :
    files_to_move "root"
        [.dir "Documents" [.file ⟨1, "a.txt", 5, 2024, 1⟩]] = [] ∧
    organize_files "root"
        (some [.dir "Documents" [.file ⟨1, "a.txt", 5, 2024, 1⟩]]) false orcNone =
      (.noFiles, some [.dir "Documents" [.file ⟨1, "a.txt", 5, 2024, 1⟩]]) :=
  organize_files_idempotent "root" [.file ⟨1, "a.txt", 5, 2024, 1⟩]
    [.dir "Documents" [.file ⟨1, "a.txt", 5, 2024, 1⟩]] orcNone orcNone false
    [("Documents", 1)] 1 (by rfl)

theorem chooseDestName_suffix_spec (names : List String) (fname : String)
    (h : fname ∈ names) :
    ∃ k, 1 ≤ k ∧ chooseDestName names fname =
      candidateName (pathStem fname) (pathSuffix fname) k ∧
      ∀ j, 1 ≤ j → j < k →
        candidateName (pathStem fname) (pathSuffix fname) j ∈ names := by
  rw [chooseDestName, if_pos h]
  rcases findFresh_spec names (pathStem fname) (pathSuffix fname)
    (names.length + 1) 1 with ⟨j, hj1, hj2, hj3⟩
  exact ⟨j, hj1, hj2, fun i hi1 hi2 => hj3 i hi1 hi2⟩

theorem dirChildren_cons_file (f : FileInfo) (ns : List Node) (d : String) :
    dirChildren (Node.file f :: ns) d = dirChildren ns d := by
  rw [dirChildren, List.find?_cons_of_neg _ (by simp [nodeName, nodeIsDir]),
    dirChildren]

theorem dirChildren_cons_dir_eq (dn : String) (old : List Node) (ns : List Node)
    (d : String) (h : (dn == d) = true) :
    dirChildren (Node.dir dn old :: ns) d = old := by
  rw [dirChildren, List.find?_cons_of_pos _ (by simp [nodeName, nodeIsDir, h])]

theorem dirChildren_cons_dir_ne (dn : String) (old : List Node) (ns : List Node)
    (d : String) (h : (dn == d) = false) :
    dirChildren (Node.dir dn old :: ns) d = dirChildren ns d := by
  rw [dirChildren, List.find?_cons_of_neg _ (by simp [nodeName, nodeIsDir, h]),
    dirChildren]

theorem dirChildren_removeTopFile (fs : FS) (i : Nat) (d : String) :
    dirChildren (removeTopFile fs i) d = dirChildren fs d := by
  induction fs with
  | nil => rfl
  | cons n ns ih =>
    cases n with
    | dir dn old =>
      rw [show removeTopFile (Node.dir dn old :: ns) i =
          Node.dir dn old :: removeTopFile ns i from by
        simp [removeTopFile, List.filter_cons]]
      by_cases hd : (dn == d) = true
      · rw [dirChildren_cons_dir_eq dn old _ d hd,
          dirChildren_cons_dir_eq dn old ns d hd]
      · have hd' : (dn == d) = false := by simpa using hd
        rw [dirChildren_cons_dir_ne dn old _ d hd',
          dirChildren_cons_dir_ne dn old ns d hd']
        exact ih
    | file f =>
      rcases hf : f.ident != i with _ | _
      · rw [show removeTopFile (Node.file f :: ns) i = removeTopFile ns i from by
          simp [removeTopFile, List.filter_cons, hf]]
        rw [dirChildren_cons_file f ns d]
        exact ih
      · rw [show removeTopFile (Node.file f :: ns) i =
            Node.file f :: removeTopFile ns i from by
          simp [removeTopFile, List.filter_cons, hf]]
        rw [dirChildren_cons_file, dirChildren_cons_file]
        exact ih

theorem dirChildren_of_mem_nodup (fs : FS) (d : String) (cs : List Node)
    (hnd : (childNames fs).Nodup) (hmem : Node.dir d cs ∈ fs) :
    dirChildren fs d = cs := by
  induction fs with
  | nil => exact absurd hmem (List.not_mem_nil _)
  | cons n ns ih =>
    simp only [childNames, List.map_cons, List.nodup_cons] at hnd
    rcases List.mem_cons.1 hmem with rfl | hmem'
    · exact dirChildren_cons_dir_eq d cs ns d (by simp)
    · have hd : d ∈ childNames ns := by
        rw [childNames]
        exact List.mem_map_of_mem nodeName hmem'
      have hne : nodeName n ≠ d := fun he => hnd.1 (he ▸ hd)
      cases n with
      | file f =>
        rw [dirChildren_cons_file]
        exact ih hnd.2 hmem'
      | dir dn old =>
        rw [dirChildren_cons_dir_ne dn old ns d (by simpa [nodeName] using hne)]
        exact ih hnd.2 hmem'

theorem childNames_updateDirChildren (fs : FS) (d : String) (cs : List Node) :
    childNames (updateDirChildren fs d cs) = childNames fs := by
  rw [childNames, updateDirChildren, List.map_map, childNames]
  refine List.map_congr_left fun n _ => ?_
  cases n with
  | file f => rfl
  | dir dn old =>
    simp only [Function.comp_apply]
    by_cases hd : (dn == d) = true
    · rw [if_pos hd]
      rfl
    · rw [if_neg hd]

theorem childNames_removeTopFile_sublist (fs : FS) (i : Nat) :
    (childNames (removeTopFile fs i)).Sublist (childNames fs) :=
  (List.filter_sublist fs).map nodeName

theorem mkdirExistOk_cases (fs : FS) (d : String) (fs₁ : FS)
    (h : mkdirExistOk fs d = some fs₁) :
    fs₁ = fs ∨ (fs₁ = fs ++ [.dir d []] ∧ d ∉ childNames fs) := by
  unfold mkdirExistOk at h
  split at h
  · exact absurd h (by simp)
  · split at h
    · simp only [Option.some.injEq] at h
      exact Or.inl h.symm
    · simp only [Option.some.injEq] at h
      rename_i h1 h2
      refine Or.inr ⟨h.symm, fun hmem => ?_⟩
      rcases List.mem_map.1 hmem with ⟨n, hn, hname⟩
      rcases hdir : nodeIsDir n with _ | _
      · exact h1 (List.any_eq_true.2 ⟨n, hn, by simp [hname, hdir]⟩)
      · exact h2 (List.any_eq_true.2 ⟨n, hn, by simp [hname, hdir]⟩)

theorem insertOverwriting_fresh (cs : List Node) (f : FileInfo)
    (hfresh : f.name ∉ childNames cs) :
    insertOverwriting cs f = cs ++ [.file f] := by
  rw [insertOverwriting]
  congr 1
  rw [List.filter_eq_self]
  intro n hn
  have : nodeName n ≠ f.name :=
    fun he => hfresh (he ▸ List.mem_map_of_mem nodeName hn)
  simpa using this

theorem moveTopIntoDir_dirs (fs : FS) (d : String) (f : FileInfo)
    (hnd : (childNames fs).Nodup) :
    (childNames (moveTopIntoDir fs d f)).Nodup ∧
    ∀ d₀ cs₀, Node.dir d₀ cs₀ ∈ fs →
      ∃ cs₁, Node.dir d₀ cs₁ ∈ moveTopIntoDir fs d f ∧ cs₀.Sublist cs₁ := by
  constructor
  · rw [moveTopIntoDir, childNames_updateDirChildren]
    exact hnd.sublist (childNames_removeTopFile_sublist fs f.ident)
  · intro d₀ cs₀ hmem
    have hmem1 : Node.dir d₀ cs₀ ∈ removeTopFile fs f.ident :=
      List.mem_filter.2 ⟨hmem, rfl⟩
    by_cases hd : d₀ = d
    · subst hd
      have hdc : dirChildren fs d₀ = cs₀ :=
        dirChildren_of_mem_nodup fs d₀ cs₀ hnd hmem
      refine ⟨insertOverwriting (dirChildren fs d₀)
        { f with name := chooseDestName (childNames (dirChildren fs d₀)) f.name },
        ?_, ?_⟩
      · rw [moveTopIntoDir, updateDirChildren]
        exact List.mem_map.2 ⟨Node.dir d₀ cs₀, hmem1, by simp⟩
      · rw [insertOverwriting_fresh _ _ (chooseDestName_fresh _ f.name), hdc]
        exact List.sublist_append_left cs₀ _
    · refine ⟨cs₀, ?_, List.Sublist.refl cs₀⟩
      rw [moveTopIntoDir, updateDirChildren]
      refine List.mem_map.2 ⟨Node.dir d₀ cs₀, hmem1, ?_⟩
      simp [hd]

theorem execFiles_dirs (d : String) (orc : FileInfo → Option String) :
    ∀ (files : List FileInfo) (fs : FS), (childNames fs).Nodup →
      (childNames (execFiles d orc fs files).1).Nodup ∧
      ∀ d₀ cs₀, Node.dir d₀ cs₀ ∈ fs →
        ∃ cs₁, Node.dir d₀ cs₁ ∈ (execFiles d orc fs files).1 ∧ cs₀.Sublist cs₁ := by
  intro files
  induction files with
  | nil =>
    intro fs hnd
    exact ⟨hnd, fun d₀ cs₀ hmem => ⟨cs₀, hmem, List.Sublist.refl cs₀⟩⟩
  | cons f rest ih =>
    intro fs hnd
    cases horc : orc f with
    | some e =>
      simp only [execFiles, horc]
      exact ih fs hnd
    | none =>
      simp only [execFiles, horc]
      rcases moveTopIntoDir_dirs fs d f hnd with ⟨hnd1, hmove⟩
      rcases ih (moveTopIntoDir fs d f) hnd1 with ⟨hnd2, hrest⟩
      refine ⟨hnd2, fun d₀ cs₀ hmem => ?_⟩
      rcases hmove d₀ cs₀ hmem with ⟨cs₁, hmem1, hsub1⟩
      rcases hrest d₀ cs₁ hmem1 with ⟨cs₂, hmem2, hsub2⟩
      exact ⟨cs₂, hmem2, hsub1.trans hsub2⟩

theorem execGroups_dirs (orc : FileInfo → Option String) :
    ∀ (groups : List (String × List FileInfo)) (fs : FS),
      (childNames fs).Nodup →
      ∀ d₀ cs₀, Node.dir d₀ cs₀ ∈ fs →
        ∃ cs₁, Node.dir d₀ cs₁ ∈ execOutFS (execGroups orc fs groups) ∧
          cs₀.Sublist cs₁ := by
  intro groups
  induction groups with
  | nil =>
    intro fs _ d₀ cs₀ hmem
    exact ⟨cs₀, hmem, List.Sublist.refl cs₀⟩
  | cons grp rest ih =>
    intro fs hnd d₀ cs₀ hmem
    obtain ⟨cat, files⟩ := grp
    rw [execGroups]
    cases hmk : mkdirExistOk fs cat with
    | none =>
      simp only [hmk]
      exact ⟨cs₀, hmem, List.Sublist.refl cs₀⟩
    | some fs1 =>
      simp only [hmk]
      have hstep : (childNames fs1).Nodup ∧ Node.dir d₀ cs₀ ∈ fs1 := by
        rcases mkdirExistOk_cases fs cat fs1 hmk with rfl | ⟨rfl, hfresh⟩
        · exact ⟨hnd, hmem⟩
        · constructor
          · rw [childNames, List.map_append]
            rw [List.nodup_append]
            refine ⟨hnd, by simp [nodeName], fun a ha hb => ?_⟩
            simp only [List.map_cons, List.map_nil, List.mem_singleton] at hb
            rw [hb] at ha
            exact hfresh ha
          · exact List.mem_append_left _ hmem
      rcases execFiles_dirs cat orc files fs1 hstep.1 with ⟨hnd2, hfiles⟩
      rcases hfiles d₀ cs₀ hstep.2 with ⟨cs₁, hmem1, hsub1⟩
      rcases ih (execFiles cat orc fs1 files).1 hnd2 d₀ cs₁ hmem1 with
        ⟨cs₂, hmem2, hsub2⟩
      refine ⟨cs₂, ?_, hsub1.trans hsub2⟩
      cases hrec : execGroups orc (execFiles cat orc fs1 files).1 rest with
      | ok fs3 b3 sk3 t3 =>
        simp only [hrec]
        rw [hrec] at hmem2
        exact hmem2
      | err fs3 msg =>
        simp only [hrec]
        rw [hrec] at hmem2
        exact hmem2

theorem dirChildren_updateDirChildren_self (X : FS) (a : String) (CS : List Node) :
    dirChildren (updateDirChildren X a CS) a =
      if X.any (fun n => nodeName n == a && nodeIsDir n) then CS
      else dirChildren X a := by
  induction X with
  | nil => rfl
  | cons n ns ih =>
    cases n with
    | file f =>
      rw [show updateDirChildren (Node.file f :: ns) a CS =
          Node.file f :: updateDirChildren ns a CS from rfl]
      rw [dirChildren_cons_file, ih]
      have hc : (Node.file f :: ns).any (fun n => nodeName n == a && nodeIsDir n) =
          ns.any (fun n => nodeName n == a && nodeIsDir n) := by
        simp [List.any_cons, nodeName, nodeIsDir]
      rw [hc, dirChildren_cons_file]
    | dir dn old =>
      by_cases hd : (dn == a) = true
      · rw [show updateDirChildren (Node.dir dn old :: ns) a CS =
            Node.dir dn CS :: updateDirChildren ns a CS from by
          simp [updateDirChildren, eq_of_beq hd]]
        rw [dirChildren_cons_dir_eq dn CS _ a hd]
        have hc : (Node.dir dn old :: ns).any
            (fun n => nodeName n == a && nodeIsDir n) = true := by
          simp [List.any_cons, nodeName, nodeIsDir, hd]
        rw [if_pos hc]
      · have hd' : (dn == a) = false := by simpa using hd
        have hne : ¬ dn = a := by simpa using hd'
        rw [show updateDirChildren (Node.dir dn old :: ns) a CS =
            Node.dir dn old :: updateDirChildren ns a CS from by
          simp [updateDirChildren, hne]]
        rw [dirChildren_cons_dir_ne dn old _ a hd', ih]
        have hc : (Node.dir dn old :: ns).any
            (fun n => nodeName n == a && nodeIsDir n) =
            ns.any (fun n => nodeName n == a && nodeIsDir n) := by
          simp [List.any_cons, nodeName, nodeIsDir, hd']
        rw [hc, dirChildren_cons_dir_ne dn old ns a hd']

theorem moveTopIntoDir2_dest_sublist (fs : FS) (a b : String) (f : FileInfo) :
    (dirChildren2 fs a b).Sublist
      (dirChildren2 (moveTopIntoDir2 fs a b f) a b) := by
  rw [moveTopIntoDir2, updateDir2]
  simp only [dirChildren2]
  rw [dirChildren_updateDirChildren_self]
  split
  · rw [dirChildren_removeTopFile, dirChildren_updateDirChildren_self]
    split
    · rw [insertOverwriting_fresh _ _ (chooseDestName_fresh _ f.name)]
      exact List.sublist_append_left _ _
    · exact List.Sublist.refl _
  · rw [dirChildren_removeTopFile]

/-- **C4.**  Collision safety of the organizers' destination naming.
(1) The chosen destination name is never one that already exists in the
destination listing, so no existing file is overwritten.  (2) When the
original filename is taken, the chosen name is `f"{stem}_{k}{suffix}"` for the
first counter `k ≥ 1` that is free — every smaller counter's candidate was
taken.  (3) Consequently a whole `organize_files` run only ever extends the
contents of existing directories (every directory's prior contents survive as
a sublist), and (4) the per-move step of `organize_by_date` likewise extends
the destination month directory.  (5) Concretely, moving two distinct source
files both named `a.txt` into the same destination folder (two
destination-override runs) leaves both on disk, as `a.txt` and `a_1.txt`,
with no file lost. -/
theorem organize_collision_safe :
    (∀ (names : List String) (fname : String), chooseDestName names fname ∉ names) ∧
    (∀ (names : List String) (fname : String), fname ∈ names →
      ∃ k, 1 ≤ k ∧ chooseDestName names fname =
        candidateName (pathStem fname) (pathSuffix fname) k ∧
        ∀ j, 1 ≤ j → j < k →
          candidateName (pathStem fname) (pathSuffix fname) j ∈ names) ∧
    (∀ rootName fs preview_only orc res fs',
      (childNames fs).Nodup →
      organize_files rootName (some fs) preview_only orc = (res, some fs') →
      ∀ d₀ cs₀, Node.dir d₀ cs₀ ∈ fs →
        ∃ cs₁, Node.dir d₀ cs₁ ∈ fs' ∧ cs₀.Sublist cs₁) ∧
    (∀ fs a b f, (dirChildren2 fs a b).Sublist
      (dirChildren2 (moveTopIntoDir2 fs a b f) a b)) ∧
    (organize_files_to "src1" (some [.file ⟨1, "a.txt", 5, 2024, 1⟩]) [] false
        orcNone =
      (.done [("Documents", 1)] 1 [], some [],
        [.dir "Documents" [.file ⟨1, "a.txt", 5, 2024, 1⟩]]) ∧
      organize_files_to "src2" (some [.file ⟨2, "a.txt", 7, 2024, 1⟩])
          [.dir "Documents" [.file ⟨1, "a.txt", 5, 2024, 1⟩]] false orcNone =
        (.done [("Documents", 1)] 1 [], some [],
          [.dir "Documents" [.file ⟨1, "a.txt", 5, 2024, 1⟩,
            .file ⟨2, "a_1.txt", 7, 2024, 1⟩]])) := by
  refine ⟨chooseDestName_fresh, chooseDestName_suffix_spec, ?_,
    moveTopIntoDir2_dest_sublist, by rfl, by rfl⟩
  intro rootName fs preview_only orc res fs' hnd h
  rw [organize_files] at h
  by_cases hemp : (files_to_move rootName fs).isEmpty
  · rw [if_pos hemp] at h
    have h2 := congrArg Prod.snd h
    simp only [Option.some.injEq] at h2
    rw [← h2]
    exact fun d₀ cs₀ hmem => ⟨cs₀, hmem, List.Sublist.refl cs₀⟩
  · rw [if_neg hemp] at h
    cases preview_only with
    | true =>
      rw [if_pos rfl] at h
      have h2 := congrArg Prod.snd h
      simp only [Option.some.injEq] at h2
      rw [← h2]
      exact fun d₀ cs₀ hmem => ⟨cs₀, hmem, List.Sublist.refl cs₀⟩
    | false =>
      rw [if_neg (by simp)] at h
      cases hexec : execGroups orc fs (sortByKey (files_to_move rootName fs)) with
      | ok fs3 b3 sk3 t3 =>
        rw [hexec] at h
        have h2 := congrArg Prod.snd h
        simp only [Option.some.injEq] at h2
        rw [← h2]
        intro d₀ cs₀ hmem
        have := execGroups_dirs orc (sortByKey (files_to_move rootName fs)) fs
          hnd d₀ cs₀ hmem
        rwa [hexec] at this
      | err fs3 msg =>
        rw [hexec] at h
        have h2 := congrArg Prod.snd h
        simp only [Option.some.injEq] at h2
        rw [← h2]
        intro d₀ cs₀ hmem
        have := execGroups_dirs orc (sortByKey (files_to_move rootName fs)) fs
          hnd d₀ cs₀ hmem
        rwa [hexec] at this

/-- Witness for C4: the colliding name `a.txt` resolves to `a_1.txt`, and a
run over a root holding a populated `Documents` folder preserves that
folder's prior contents. -/
theorem organize_collision_safe_witness :
    chooseDestName ["a.txt"] "a.txt" ∉ ["a.txt"] ∧
    (∃ k, 1 ≤ k ∧ chooseDestName ["a.txt"] "a.txt" =
      candidateName (pathStem "a.txt") (pathSuffix "a.txt") k ∧
      ∀ j, 1 ≤ j → j < k →
        candidateName (pathStem "a.txt") (pathSuffix "a.txt") j ∈ ["a.txt"]) ∧
    (∀ d₀ cs₀, Node.dir d₀ cs₀ ∈ ([.file ⟨1, "b.pdf", 5, 2024, 1⟩,
        .dir "Documents" [.file ⟨9, "x.pdf", 3, 2024, 1⟩]] : FS) →
      ∃ cs₁, Node.dir d₀ cs₁ ∈ ([.dir "Documents"
          [.file ⟨9, "x.pdf", 3, 2024, 1⟩, .file ⟨1, "b.pdf", 5, 2024, 1⟩]] : FS) ∧
        cs₀.Sublist cs₁) :=
  ⟨organize_collision_safe.1 ["a.txt"] "a.txt",
    organize_collision_safe.2.1 ["a.txt"] "a.txt" (by decide),
    organize_collision_safe.2.2.1 "r"
      [.file ⟨1, "b.pdf", 5, 2024, 1⟩,
        .dir "Documents" [.file ⟨9, "x.pdf", 3, 2024, 1⟩]]
      false orcNone (.done [("Documents", 1)] 1 [])
      [.dir "Documents" [.file ⟨9, "x.pdf", 3, 2024, 1⟩,
        .file ⟨1, "b.pdf", 5, 2024, 1⟩]]
      (by decide) (by rfl)⟩

end SupportBot
